import Mathlib

/-!
Verification of the core arithmetic of the respire PIR repository.

The definitions below are shallow embeddings of the Rust sources:
* `src/fhe-psi/src/math/ntt.rs` (negacyclic NTT, Shoup multiplication),
* `src/fhe-psi/src/math/z_n_cyclo.rs` (coefficient-form cyclotomic ring),
* `src/fhe-psi/src/fhe/gadget.rs` (gadget matrix and gadget inverse),
* `src/src/pir/cuckoo_respire.rs` (3-way cuckoo hashing batch layer).

Machine integers are modelled as `Nat`; `u32`/`u64` two's-complement
wrap-around is explicit (`wsub32`, `wsub64`, `% 2^32`, `% 2^64`) at each
operation where the source relies on wrapping semantics.  Arrays are
modelled as total functions `Nat → Nat` read only below their length.
-/

namespace Respire

/-- Wrapping `u32` subtraction: two's complement `a - b` modulo `2^32`
(both arguments reduced like `u32` casts). -/
def wsub32 (a b : Nat) : Nat := (a % 2 ^ 32 + (2 ^ 32 - b % 2 ^ 32)) % 2 ^ 32

/-- Wrapping `u64` subtraction: two's complement `a - b` modulo `2^64`. -/
def wsub64 (a b : Nat) : Nat := (a % 2 ^ 64 + (2 ^ 64 - b % 2 ^ 64)) % 2 ^ 64

/-- Low 32 bits of a 64-bit lane. -/
def lo32 (v : Nat) : Nat := v % 2 ^ 32

/-- High 32 bits of a 64-bit lane. -/
def hi32 (v : Nat) : Nat := v / 2 ^ 32 % 2 ^ 32

/-- Assemble a 64-bit lane from its 32-bit halves. -/
def lane (hi lo : Nat) : Nat := hi * 2 ^ 32 + lo

/-- One 64-bit lane of `_mm256_sub_epi32`: independent wrapping `u32`
subtraction on the two 32-bit halves. -/
def subEpi32Lane (v m : Nat) : Nat := lane (wsub32 (hi32 v) (hi32 m)) (wsub32 (lo32 v) (lo32 m))

/-- One 64-bit lane of `_mm256_min_epu32`: independent unsigned minimum on
the two 32-bit halves. -/
def minEpu32Lane (a b : Nat) : Nat := lane (min (hi32 a) (hi32 b)) (min (lo32 a) (lo32 b))

/-- One 64-bit lane of `_mm256_mullo_epi32`: independent low-32-bit products
of the two 32-bit halves. -/
def mulloEpi32Lane (a b : Nat) : Nat :=
  lane (hi32 a * hi32 b % 2 ^ 32) (lo32 a * lo32 b % 2 ^ 32)

/-- One 64-bit lane of `_mm256_mul_epu32`: full 64-bit product of the low
32-bit halves. -/
def mulEpu32Lane (a b : Nat) : Nat := lo32 a * lo32 b

/-- One 64-bit lane of `_mm256_add_epi32`: independent wrapping `u32`
addition on the two 32-bit halves. -/
def addEpi32Lane (a b : Nat) : Nat :=
  lane ((hi32 a + hi32 b) % 2 ^ 32) ((lo32 a + lo32 b) % 2 ^ 32)

/-- The 64-bit lane holding `-(q : i64)` in two's complement
(`_mm256_set1_epi64x(-(N as i64))` for `0 < q`). -/
def negModulusLane (q : Nat) : Nat := 2 ^ 64 - q

/-- One 64-bit lane of `_mm256_mod_mul32` from `ntt.rs`: Shoup modular
multiplication `lhs * rhs mod q` into `[0, 2q)`, computed as
`srli64(mul_epu32(ratio, lhs), 32)` followed by `mullo_epi32` products with
`rhs` and with the `-q` lane, combined by `add_epi32`. -/
def mm256ModMul32Lane (lhs rhs ratio q : Nat) : Nat :=
  let quotient := mulEpu32Lane ratio lhs >>> 32
  let lhsTimesRhs := mulloEpi32Lane lhs rhs
  let negModulusTimesQuotient := mulloEpi32Lane (negModulusLane q) quotient
  addEpi32Lane lhsTimesRhs negModulusTimesQuotient

/-- One 64-bit lane of `_mm256_reduce_half` from `ntt.rs`:
`min_epu32(v, sub_epi32(v, m))`, reducing `[0, 2m)` to `[0, m)`. -/
def mm256ReduceHalfLane (v m : Nat) : Nat := minEpu32Lane v (subEpi32Lane v m)

/-- The Shoup precomputed ratio `get_ratio32` from `ntt.rs`:
`(a << 32) / N`. -/
def get_ratio32 (q a : Nat) : Nat := (a <<< 32) / q

theorem lo32_of_lt {v : Nat} (h : v < 2 ^ 32) : lo32 v = v := Nat.mod_eq_of_lt h

theorem hi32_of_lt {v : Nat} (h : v < 2 ^ 32) : hi32 v = 0 := by
  unfold hi32
  rw [Nat.div_eq_of_lt h]
  rfl

theorem wsub32_lt (a b : Nat) : wsub32 a b < 2 ^ 32 := Nat.mod_lt _ (by norm_num)

theorem lo32_lane {b : Nat} (a : Nat) (hb : b < 2 ^ 32) : lo32 (lane a b) = b := by
  unfold lo32 lane
  omega

theorem hi32_lane {a b : Nat} (ha : a < 2 ^ 32) (hb : b < 2 ^ 32) :
    hi32 (lane a b) = a := by
  unfold hi32 lane
  omega

theorem lane_zero (b : Nat) : lane 0 b = b := by unfold lane; omega

theorem wsub32_eq_sub {a b : Nat} (hba : b ≤ a) (ha : a < 2 ^ 32) :
    wsub32 a b = a - b := by
  unfold wsub32
  have hb : b < 2 ^ 32 := lt_of_le_of_lt hba ha
  rw [Nat.mod_eq_of_lt ha, Nat.mod_eq_of_lt hb]
  have h1 : a + (2 ^ 32 - b) = 2 ^ 32 + (a - b) := by omega
  rw [h1, Nat.add_mod_left, Nat.mod_eq_of_lt (by omega)]

theorem wsub64_eq_sub {a b : Nat} (hba : b ≤ a) (ha : a < 2 ^ 64) :
    wsub64 a b = a - b := by
  unfold wsub64
  have hb : b < 2 ^ 64 := lt_of_le_of_lt hba ha
  rw [Nat.mod_eq_of_lt ha, Nat.mod_eq_of_lt hb]
  have h1 : a + (2 ^ 64 - b) = 2 ^ 64 + (a - b) := by omega
  rw [h1, Nat.add_mod_left, Nat.mod_eq_of_lt (by omega)]

/-- `_mm256_reduce_half` lane behaviour on in-range inputs: it is the
conditional subtraction `if m ≤ v then v - m else v`. -/
theorem mm256ReduceHalfLane_eq {v m : Nat} (hv : v < 2 ^ 32) (hm : m < 2 ^ 32) :
    mm256ReduceHalfLane v m = if m ≤ v then v - m else v := by
  have hsub : subEpi32Lane v m = lane (wsub32 0 0) (wsub32 v m) := by
    unfold subEpi32Lane
    rw [hi32_of_lt hv, hi32_of_lt hm, lo32_of_lt hv, lo32_of_lt hm]
  have hw00 : wsub32 0 0 = 0 := rfl
  have hmain : mm256ReduceHalfLane v m = min v (wsub32 v m) := by
    unfold mm256ReduceHalfLane
    rw [hsub, hw00, lane_zero]
    unfold minEpu32Lane
    rw [hi32_of_lt hv, hi32_of_lt (wsub32_lt v m), lo32_of_lt hv, lo32_of_lt (wsub32_lt v m)]
    rw [Nat.min_self, lane_zero]
  rw [hmain]
  by_cases h : m ≤ v
  · rw [wsub32_eq_sub h hv]
    simp only [h, if_true]
    omega
  · have hvm : v < m := Nat.lt_of_not_le h
    have hval : wsub32 v m = v + (2 ^ 32 - m) := by
      unfold wsub32
      rw [Nat.mod_eq_of_lt hv, Nat.mod_eq_of_lt hm, Nat.mod_eq_of_lt (by omega)]
    simp only [h, if_false]
    omega

/-- Lower bound of Shoup's quotient: `q * (ratio * lhs / 2^32) ≤ rhs * lhs`
when `ratio = (rhs << 32) / q`. -/
theorem shoup_quot_le (q rhs lhs : Nat) :
    q * (get_ratio32 q rhs * lhs / 2 ^ 32) ≤ rhs * lhs := by
  have h1 : get_ratio32 q rhs * q ≤ rhs * 2 ^ 32 := by
    unfold get_ratio32
    rw [Nat.shiftLeft_eq]
    exact Nat.div_mul_le_self _ _
  have h2 : q * (get_ratio32 q rhs * lhs / 2 ^ 32) ≤ q * (get_ratio32 q rhs * lhs) / 2 ^ 32 := by
    rw [Nat.le_div_iff_mul_le (by norm_num : 0 < 2 ^ 32)]
    calc q * (get_ratio32 q rhs * lhs / 2 ^ 32) * 2 ^ 32
        = q * (get_ratio32 q rhs * lhs / 2 ^ 32 * 2 ^ 32) := by ring
      _ ≤ q * (get_ratio32 q rhs * lhs) := by
          exact Nat.mul_le_mul_left q (Nat.div_mul_le_self _ _)
  refine le_trans h2 ?_
  have h3 : q * (get_ratio32 q rhs * lhs) ≤ rhs * 2 ^ 32 * lhs := by
    calc q * (get_ratio32 q rhs * lhs) = get_ratio32 q rhs * q * lhs := by ring
      _ ≤ rhs * 2 ^ 32 * lhs := Nat.mul_le_mul_right lhs h1
  refine le_trans (Nat.div_le_div_right h3) ?_
  have h4 : rhs * 2 ^ 32 * lhs = rhs * lhs * 2 ^ 32 := by ring
  rw [h4, Nat.mul_div_cancel _ (by norm_num : 0 < 2 ^ 32)]

/-- Upper bound of Shoup's remainder: when `ratio = (rhs << 32) / q` and
`lhs < 2^32`, the lazily reduced product lies below `q * quot + 2q`. -/
theorem shoup_lt {q rhs lhs : Nat} (hq : 0 < q) (hlhs : lhs < 2 ^ 32) :
    rhs * lhs < q * (get_ratio32 q rhs * lhs / 2 ^ 32) + 2 * q := by
  rcases Nat.eq_zero_or_pos lhs with h0 | hpos
  · subst h0
    simp
    omega
  set ratio := get_ratio32 q rhs with hratiodef
  set quot := ratio * lhs / 2 ^ 32 with hquotdef
  have hratioval : ratio = rhs * 2 ^ 32 / q := by
    rw [hratiodef]
    unfold get_ratio32
    rw [Nat.shiftLeft_eq]
  have h1 : rhs * 2 ^ 32 < q * ratio + q := by
    have hdm := Nat.div_add_mod (rhs * 2 ^ 32) q
    have hmod := Nat.mod_lt (rhs * 2 ^ 32) hq
    rw [hratioval]
    omega
  have h2 : ratio * lhs < 2 ^ 32 * quot + 2 ^ 32 := by
    have hdm := Nat.div_add_mod (ratio * lhs) (2 ^ 32)
    have hmod := Nat.mod_lt (ratio * lhs) (show 0 < 2 ^ 32 by norm_num)
    omega
  have h3 : rhs * lhs * 2 ^ 32 < (q * ratio + q) * lhs := by
    calc rhs * lhs * 2 ^ 32 = rhs * 2 ^ 32 * lhs := by ring
      _ < (q * ratio + q) * lhs := (Nat.mul_lt_mul_right hpos).mpr h1
  have h4 : q * ratio * lhs + q * lhs < q * (2 ^ 32 * quot + 2 ^ 32) + q * 2 ^ 32 := by
    have e1 : q * ratio * lhs = q * (ratio * lhs) := by ring
    have e2 : q * (ratio * lhs) ≤ q * (2 ^ 32 * quot + 2 ^ 32 - 1) :=
      Nat.mul_le_mul_left q (by omega)
    have e2b : q * (2 ^ 32 * quot + 2 ^ 32 - 1) + q = q * (2 ^ 32 * quot + 2 ^ 32) := by
      have : 2 ^ 32 * quot + 2 ^ 32 - 1 + 1 = 2 ^ 32 * quot + 2 ^ 32 := by omega
      calc q * (2 ^ 32 * quot + 2 ^ 32 - 1) + q = q * (2 ^ 32 * quot + 2 ^ 32 - 1 + 1) := by ring
        _ = q * (2 ^ 32 * quot + 2 ^ 32) := by rw [this]
    have e3 : q * lhs ≤ q * (2 ^ 32 - 1) := Nat.mul_le_mul_left q (by omega)
    have e4 : q * (2 ^ 32 - 1) + q = q * 2 ^ 32 := by
      have : (2 : Nat) ^ 32 - 1 + 1 = 2 ^ 32 := by omega
      calc q * (2 ^ 32 - 1) + q = q * (2 ^ 32 - 1 + 1) := by ring
        _ = q * 2 ^ 32 := by rw [this]
    omega
  have h6 : rhs * lhs * 2 ^ 32 < (q * quot + 2 * q) * 2 ^ 32 := by
    have e5 : q * (2 ^ 32 * quot + 2 ^ 32) + q * 2 ^ 32 = (q * quot + 2 * q) * 2 ^ 32 := by ring
    have e6 : (q * ratio + q) * lhs = q * ratio * lhs + q * lhs := by ring
    omega
  exact Nat.lt_of_mul_lt_mul_right h6

/-- Full behaviour of one 64-bit lane of `_mm256_mod_mul32` under its
documented preconditions: the result is exactly `rhs * lhs - q * quot`
with `quot = ⌊ratio·lhs / 2^32⌋`, and it lies in `[0, 2q)`. -/
theorem mm256ModMul32Lane_spec {q rhs lhs ratio : Nat} (hq : 0 < q) (hq30 : q < 2 ^ 30)
    (hrhs : rhs < q) (hratio : ratio = get_ratio32 q rhs) (hlhs : lhs < 4 * q) :
    mm256ModMul32Lane lhs rhs ratio q = rhs * lhs - q * (ratio * lhs / 2 ^ 32) ∧
      q * (ratio * lhs / 2 ^ 32) ≤ rhs * lhs ∧
      rhs * lhs - q * (ratio * lhs / 2 ^ 32) < 2 * q := by
  have hlhs32 : lhs < 2 ^ 32 := by omega
  have hrhs32 : rhs < 2 ^ 32 := by omega
  have hq32 : q < 2 ^ 32 := by omega
  have hratio32 : ratio < 2 ^ 32 := by
    rw [hratio]
    unfold get_ratio32
    rw [Nat.shiftLeft_eq]
    rw [Nat.div_lt_iff_lt_mul hq]
    calc rhs * 2 ^ 32 < q * 2 ^ 32 :=
          (Nat.mul_lt_mul_right (by norm_num)).mpr hrhs
      _ = 2 ^ 32 * q := by ring
  set quot := ratio * lhs / 2 ^ 32 with hquotdef
  have hquot32 : quot < 2 ^ 32 := by
    have h1 : ratio * lhs < 2 ^ 32 * 2 ^ 32 := by
      calc ratio * lhs ≤ (2 ^ 32 - 1) * lhs := Nat.mul_le_mul_right lhs (by omega)
        _ < 2 ^ 32 * 2 ^ 32 := by
            have : (2 ^ 32 - 1) * lhs ≤ (2 ^ 32 - 1) * (2 ^ 32 - 1) :=
              Nat.mul_le_mul_left _ (by omega)
            have hb : (2 ^ 32 - 1) * (2 ^ 32 - 1) < 2 ^ 32 * 2 ^ 32 := by norm_num
            omega
    rw [hquotdef]
    omega
  have hle : q * quot ≤ rhs * lhs := by
    rw [hquotdef, hratio]
    exact shoup_quot_le q rhs lhs
  have hlt : rhs * lhs < q * quot + 2 * q := by
    rw [hquotdef, hratio]
    rw [hratio] at hquotdef
    exact shoup_lt hq hlhs32
  refine ⟨?_, hle, by omega⟩
  -- evaluate the lane computation
  have hquoteval : mulEpu32Lane ratio lhs >>> 32 = quot := by
    unfold mulEpu32Lane
    rw [lo32_of_lt hratio32, lo32_of_lt hlhs32, Nat.shiftRight_eq_div_pow]
  have hltr : mulloEpi32Lane lhs rhs = lane 0 (lhs * rhs % 2 ^ 32) := by
    unfold mulloEpi32Lane
    rw [hi32_of_lt hlhs32, hi32_of_lt hrhs32, lo32_of_lt hlhs32, lo32_of_lt hrhs32]
    norm_num
  have hnegmod_lo : lo32 (negModulusLane q) = 2 ^ 32 - q := by
    unfold lo32 negModulusLane
    omega
  have hnegmod_hi : hi32 (negModulusLane q) = 2 ^ 32 - 1 := by
    unfold hi32 negModulusLane
    omega
  have hnmq : mulloEpi32Lane (negModulusLane q) quot =
      lane 0 ((2 ^ 32 - q) * quot % 2 ^ 32) := by
    unfold mulloEpi32Lane
    rw [hnegmod_lo, hnegmod_hi, hi32_of_lt hquot32, lo32_of_lt hquot32]
    norm_num
  have hunfold : mm256ModMul32Lane lhs rhs ratio q =
      addEpi32Lane (mulloEpi32Lane lhs rhs)
        (mulloEpi32Lane (negModulusLane q) (mulEpu32Lane ratio lhs >>> 32)) := rfl
  have heval : mm256ModMul32Lane lhs rhs ratio q =
      addEpi32Lane (lane 0 (lhs * rhs % 2 ^ 32)) (lane 0 ((2 ^ 32 - q) * quot % 2 ^ 32)) := by
    rw [hunfold, hquoteval, hltr, hnmq]
  rw [heval]
  unfold addEpi32Lane
  rw [hi32_lane (by norm_num) (Nat.mod_lt _ (by norm_num)),
      hi32_lane (by norm_num) (Nat.mod_lt _ (by norm_num)),
      lo32_lane _ (Nat.mod_lt _ (by norm_num)),
      lo32_lane _ (Nat.mod_lt _ (by norm_num)),
      Nat.add_zero, Nat.zero_mod, lane_zero]
  -- linear arithmetic after abstracting the products
  have hprod : lhs * rhs = rhs * lhs := by ring
  rw [hprod]
  have hsplit : (2 ^ 32 - q) * quot = 2 ^ 32 * quot - q * quot := Nat.sub_mul _ _ _
  rw [hsplit]
  have hcle : q * quot ≤ 2 ^ 32 * quot := Nat.mul_le_mul_right quot (le_of_lt hq32)
  omega

/-- Iterate a loop body `f` over indices `0, 1, …, n-1` (in that order) on a
state: the shallow embedding of `for i in 0..n` loops. -/
def forN {α : Type} (n : Nat) (f : Nat → α → α) (s : α) : α :=
  match n with
  | 0 => s
  | n + 1 => f n (forN n f s)

/-- Write `x` at index `i` of an array modelled as a function. -/
def upd (s : Nat → Nat) (i x : Nat) : Nat → Nat := fun j => if j = i then x else s j

theorem upd_same (s : Nat → Nat) (i x : Nat) : upd s i x i = x := by simp [upd]

theorem upd_other (s : Nat → Nat) {i j : Nat} (x : Nat) (h : j ≠ i) : upd s i x j = s j := by
  simp [upd, h]

/-- Modelled from the spec: `reverse_bits` (`src/fhe-psi/src/math/utils.rs`,
not under `src/`) reverses the low `bits` binary digits of `i`; the spec
stores NTT outputs "in bit-reversed order" over `D = 2^bits` slots. -/
def reverse_bits (bits i : Nat) : Nat :=
  match bits with
  | 0 => 0
  | b + 1 => 2 ^ b * (i % 2) + reverse_bits b (i / 2)

theorem reverse_bits_lt (bits i : Nat) : reverse_bits bits i < 2 ^ bits := by
  induction bits generalizing i with
  | zero => simp [reverse_bits]
  | succ b ih =>
    have h := ih (i / 2)
    have h2 : i % 2 < 2 := Nat.mod_lt _ (by norm_num)
    simp only [reverse_bits]
    have : 2 ^ (b + 1) = 2 ^ b * 2 := by ring
    rw [this]
    have hcase : i % 2 = 0 ∨ i % 2 = 1 := by omega
    rcases hcase with hc | hc <;> rw [hc] <;> omega

theorem reverse_bits_two_mul (b i : Nat) :
    reverse_bits (b + 1) (2 * i) = reverse_bits b i := by
  simp [reverse_bits, Nat.mul_div_cancel_left, Nat.mul_mod_right]

theorem reverse_bits_two_mul_add_one (b i : Nat) :
    reverse_bits (b + 1) (2 * i + 1) = 2 ^ b + reverse_bits b i := by
  have h1 : (2 * i + 1) % 2 = 1 := by omega
  have h2 : (2 * i + 1) / 2 = i := by omega
  simp [reverse_bits, h1, h2]

theorem reverse_bits_shift {b i : Nat} (h : i < 2 ^ b) :
    reverse_bits (b + 1) i = 2 * reverse_bits b i := by
  induction b generalizing i with
  | zero =>
    have : i = 0 := by omega
    subst this
    simp [reverse_bits]
  | succ c ih =>
    have hdiv : i / 2 < 2 ^ c := by
      have : 2 ^ (c + 1) = 2 ^ c * 2 := by ring
      omega
    have hrec : reverse_bits (c + 1 + 1) i =
        2 ^ (c + 1) * (i % 2) + reverse_bits (c + 1) (i / 2) := rfl
    rw [hrec, ih hdiv]
    have hrec2 : reverse_bits (c + 1) i = 2 ^ c * (i % 2) + reverse_bits c (i / 2) := rfl
    rw [hrec2]
    ring

theorem reverse_bits_add_pow {b x : Nat} (h : x < 2 ^ b) :
    reverse_bits (b + 1) (x + 2 ^ b) = reverse_bits (b + 1) x + 1 := by
  induction b generalizing x with
  | zero =>
    have : x = 0 := by omega
    subst this
    simp [reverse_bits]
  | succ c ih =>
    have hmod : (x + 2 ^ (c + 1)) % 2 = x % 2 := by
      have : 2 ^ (c + 1) = 2 ^ c * 2 := by ring
      omega
    have hdivlt : x / 2 < 2 ^ c := by
      have : 2 ^ (c + 1) = 2 ^ c * 2 := by ring
      omega
    have hdiv : (x + 2 ^ (c + 1)) / 2 = x / 2 + 2 ^ c := by
      have : 2 ^ (c + 1) = 2 ^ c * 2 := by ring
      omega
    have hrec : reverse_bits (c + 1 + 1) (x + 2 ^ (c + 1)) =
        2 ^ (c + 1) * ((x + 2 ^ (c + 1)) % 2) + reverse_bits (c + 1) ((x + 2 ^ (c + 1)) / 2) := rfl
    rw [hrec, hmod, hdiv, ih hdivlt]
    have hrec2 : reverse_bits (c + 1 + 1) x =
        2 ^ (c + 1) * (x % 2) + reverse_bits (c + 1) (x / 2) := rfl
    rw [hrec2]
    ring

theorem reverse_bits_involution {b i : Nat} (h : i < 2 ^ b) :
    reverse_bits b (reverse_bits b i) = i := by
  induction b generalizing i with
  | zero =>
    have : i = 0 := by omega
    subst this
    simp [reverse_bits]
  | succ c ih =>
    have hdivlt : i / 2 < 2 ^ c := by
      have : 2 ^ (c + 1) = 2 ^ c * 2 := by ring
      omega
    have hrevlt : reverse_bits c (i / 2) < 2 ^ c := reverse_bits_lt c (i / 2)
    have hrec : reverse_bits (c + 1) i = 2 ^ c * (i % 2) + reverse_bits c (i / 2) := rfl
    rcases (show i % 2 = 0 ∨ i % 2 = 1 by omega) with hc | hc
    · rw [hrec, hc]
      simp only [Nat.mul_zero, Nat.zero_add]
      rw [reverse_bits_shift hrevlt, ih hdivlt]
      omega
    · have hform : reverse_bits (c + 1) i = reverse_bits c (i / 2) + 2 ^ c := by
        rw [hrec, hc]
        ring
      rw [hform, reverse_bits_add_pow hrevlt, reverse_bits_shift hrevlt, ih hdivlt]
      omega

theorem reverse_bits_inj {b i j : Nat} (hi : i < 2 ^ b) (hj : j < 2 ^ b)
    (h : reverse_bits b i = reverse_bits b j) : i = j := by
  have h1 := reverse_bits_involution hi
  have h2 := reverse_bits_involution hj
  rw [← h1, ← h2, h]

/-- Modelled from the spec: `mod_inverse` (`src/fhe-psi/src/math/utils.rs`,
not under `src/`) returns the multiplicative inverse of `a` modulo `m`,
here computed from the extended Euclidean Bezout coefficient. -/
def mod_inverse (a m : Nat) : Nat := ((Nat.gcdA a m) % (m : Int)).toNat

theorem mod_inverse_lt {a m : Nat} (hm : 0 < m) : mod_inverse a m < m := by
  unfold mod_inverse
  have hmpos : (0 : Int) < (m : Int) := by exact_mod_cast hm
  have h1 := Int.emod_lt_of_pos (Nat.gcdA a m) hmpos
  have h2 := Int.emod_nonneg (Nat.gcdA a m) (ne_of_gt hmpos)
  omega

theorem mod_inverse_spec {a m : Nat} (hm : 0 < m) (h : Nat.gcd a m = 1) :
    ((mod_inverse a m : Nat) : ZMod m) * (a : ZMod m) = 1 := by
  have hmz : (m : Int) ≠ 0 := by exact_mod_cast Nat.pos_iff_ne_zero.mp hm
  have hnn := Int.emod_nonneg (Nat.gcdA a m) hmz
  have hcast : ((mod_inverse a m : Nat) : Int) = Nat.gcdA a m % (m : Int) := by
    unfold mod_inverse
    exact Int.toNat_of_nonneg hnn
  have hzmod : ((mod_inverse a m : Nat) : ZMod m) = ((Nat.gcdA a m : Int) : ZMod m) := by
    calc ((mod_inverse a m : Nat) : ZMod m)
        = (((mod_inverse a m : Nat) : Int) : ZMod m) := by push_cast; rfl
      _ = ((Nat.gcdA a m % (m : Int) : Int) : ZMod m) := by rw [hcast]
      _ = ((Nat.gcdA a m : Int) : ZMod m) := ZMod.intCast_mod _ _
  have hb : ((1 : Nat) : Int) = a * Nat.gcdA a m + m * Nat.gcdB a m := by
    rw [← h]
    exact Nat.gcd_eq_gcd_ab a m
  have hz : (1 : ZMod m) = (a : ZMod m) * ((Nat.gcdA a m : Int) : ZMod m) := by
    have hc := congrArg (fun x : Int => (x : ZMod m)) hb
    push_cast at hc
    rw [ZMod.natCast_self] at hc
    simpa using hc
  rw [hzmod, mul_comm]
  exact hz.symm

/-- The twiddle table of `get_powers_bit_reversed` from `ntt.rs`: starting
from `cur = 1` the loop stores `cur` (the successive powers of `root`,
reduced mod `q` by `IntMod::mul_const`) at the bit-reversed index
`reverse_bits::<D>(idx)`; the per-entry `ratio32` constant is
`get_ratio32` of the stored value. -/
def get_powers_bit_reversed (D q root : Nat) : Nat → Nat :=
  forN D (fun idx t => upd t (reverse_bits (Nat.log 2 D) idx) (root ^ idx % q)) (fun _ => 0)

theorem get_powers_aux {d q root : Nat} (z : Nat → Nat) :
    ∀ n, n ≤ 2 ^ d → ∀ j, j < 2 ^ d →
      forN n (fun idx t => upd t (reverse_bits d idx) (root ^ idx % q)) z j =
        if reverse_bits d j < n then root ^ reverse_bits d j % q else z j := by
  intro n
  induction n with
  | zero =>
    intro _ j _
    simp [forN]
  | succ n ih =>
    intro hn j hj
    have hn' : n ≤ 2 ^ d := by omega
    simp only [forN]
    by_cases hjr : j = reverse_bits d n
    · subst hjr
      rw [upd_same]
      have hrr : reverse_bits d (reverse_bits d n) = n := reverse_bits_involution (by omega)
      rw [hrr]
      simp
    · rw [upd_other _ _ hjr, ih hn' j hj]
      have hne : reverse_bits d j ≠ n := by
        intro hcontra
        apply hjr
        rw [← hcontra, reverse_bits_involution hj]
      by_cases hlt : reverse_bits d j < n
      · simp [hlt, show reverse_bits d j < n + 1 by omega]
      · simp [hlt, show ¬ reverse_bits d j < n + 1 by omega]

/-- Entry `j` of the twiddle table holds `root ^ reverse_bits(j) mod q`. -/
theorem get_powers_bit_reversed_eq {d q root : Nat} {j : Nat} (hj : j < 2 ^ d) :
    get_powers_bit_reversed (2 ^ d) q root j = root ^ reverse_bits d j % q := by
  unfold get_powers_bit_reversed
  rw [Nat.log_pow (by norm_num)]
  rw [get_powers_aux _ (2 ^ d) (le_refl _) j hj]
  simp [reverse_bits_lt d j]

/-- Scalar butterfly of `ntt_neg_forward` (the `block_left_half_range.len() < 4`
path in `ntt.rs`): lazy-reduce `x`, Shoup-multiply `w * y` with explicit
`Wrapping<u32>` arithmetic, and return the new `(left, right)` values.
`u64` sums wrap modulo `2^64`. -/
def ntt_forward_butterfly_scalar (q w ratio x y : Nat) : Nat × Nat :=
  let x1 := if 2 * q ≤ x then x - 2 * q else x
  let quotient := (ratio * y % 2 ^ 64) >>> 32
  let product := wsub32 (w % 2 ^ 32 * (y % 2 ^ 32)) (q % 2 ^ 32 * (quotient % 2 ^ 32))
  ((x1 + product) % 2 ^ 64, (x1 + wsub64 (2 * q) product) % 2 ^ 64)

/-- AVX2 butterfly of `ntt_neg_forward` (one 64-bit lane of the
`_mm256_load/store` path): `reduce_half` on `x`, `_mm256_mod_mul32` for the
product, 64-bit wrapping add / sub for the new values. -/
def ntt_forward_butterfly_simd (q w ratio x y : Nat) : Nat × Nat :=
  let x1 := mm256ReduceHalfLane x (2 * q)
  let product := mm256ModMul32Lane y w ratio q
  ((x1 + product) % 2 ^ 64, (x1 + wsub64 (2 * q) product) % 2 ^ 64)

/-- Scalar butterfly of `ntt_neg_backward` (Gentleman--Sande): new left value
`x + y` conditionally reduced, new right value `w * (x - y + 2q)` by Shoup
multiplication with explicit `Wrapping<u32>` arithmetic. -/
def ntt_backward_butterfly_scalar (q w ratio x y : Nat) : Nat × Nat :=
  let xNew0 := (x + y) % 2 ^ 64
  let xNew := if 2 * q ≤ xNew0 then xNew0 - 2 * q else xNew0
  let sum := (wsub64 x y + 2 * q) % 2 ^ 64
  let quotient := (ratio * sum % 2 ^ 64) >>> 32
  let yNew := wsub32 (w % 2 ^ 32 * (sum % 2 ^ 32)) (q % 2 ^ 32 * (quotient % 2 ^ 32))
  (xNew, yNew)

/-- One iteration of the inner butterfly loop: apply the butterfly `B` to
the pair at indices `(base + k, base + k + half)`. -/
def butterflyStep (B : Nat → Nat → Nat × Nat) (half base k : Nat) (s : Nat → Nat) :
    Nat → Nat :=
  let left := base + k
  let right := left + half
  let p := B (s left) (s right)
  upd (upd s left p.1) right p.2

/-- The inner butterfly loop shared by every round: for `k < half`, apply the
butterfly `B` to the pair at indices `(base + k, base + k + half)`. -/
def butterflyLoop (B : Nat → Nat → Nat × Nat) (half base : Nat) (s : Nat → Nat) : Nat → Nat :=
  forN half (butterflyStep B half base) s

/-- One round of `ntt_neg_forward` from `ntt.rs` (Cooley--Tukey, Algorithm 2
of arXiv 2103.16400): round `r` has `2^r` blocks of half stride
`D >> (1+r)`; the block twiddle is table entry `block_count + block_idx`;
blocks of half stride `< 4` take the scalar path, the others the AVX2 path
(modelled one 64-bit lane per iteration). -/
def ntt_forward_block (q : Nat) (table : Nat → Nat)
    (blockCount blockHalfStride blockIdx : Nat) (s : Nat → Nat) : Nat → Nat :=
  let w := table (blockCount + blockIdx)
  let ratio := get_ratio32 q w
  let base := blockIdx * (2 * blockHalfStride)
  if blockHalfStride < 4 then
    butterflyLoop (ntt_forward_butterfly_scalar q w ratio) blockHalfStride base s
  else
    butterflyLoop (ntt_forward_butterfly_simd q w ratio) blockHalfStride base s

def ntt_forward_round (D q : Nat) (table : Nat → Nat) (round : Nat) (s : Nat → Nat) :
    Nat → Nat :=
  let blockCount := 2 ^ round
  let blockHalfStride := D >>> (1 + round)
  forN blockCount (ntt_forward_block q table blockCount blockHalfStride) s

/-- The final pass of `ntt_neg_forward`: reduce every entry from `[0, 4q)`
to `[0, q)` by two `reduce_half` calls. -/
def ntt_forward_final (D q : Nat) (s : Nat → Nat) : Nat → Nat :=
  forN D (fun i s => upd s i (mm256ReduceHalfLane (mm256ReduceHalfLane (s i) (2 * q)) q)) s

/-- `ntt_neg_forward` from `ntt.rs`: `LOG_D` Cooley--Tukey rounds over the
bit-reversed twiddle table, then the final reduction pass. -/
def ntt_neg_forward (D q W : Nat) (values : Nat → Nat) : Nat → Nat :=
  let table := get_powers_bit_reversed D q (W % q)
  ntt_forward_final D q (forN (Nat.log 2 D) (ntt_forward_round D q table) values)

/-- One round of `ntt_neg_backward` from `ntt.rs` (Gentleman--Sande,
Algorithm 3 of arXiv 2103.16400): round `r` has `D >> (1+r)` blocks of half
stride `2^r`; the twiddles come from the inverse-root table; only the scalar
butterfly exists in the source (the AVX2 body is commented out). -/
def ntt_backward_block (q : Nat) (tableInv : Nat → Nat)
    (blockCount blockHalfStride blockIdx : Nat) (s : Nat → Nat) : Nat → Nat :=
  let w := tableInv (blockCount + blockIdx)
  let ratio := get_ratio32 q w
  let base := blockIdx * (2 * blockHalfStride)
  butterflyLoop (ntt_backward_butterfly_scalar q w ratio) blockHalfStride base s

def ntt_backward_round (D q : Nat) (tableInv : Nat → Nat) (round : Nat) (s : Nat → Nat) :
    Nat → Nat :=
  let blockCount := D >>> (1 + round)
  let blockHalfStride := 2 ^ round
  forN blockCount (ntt_backward_block q tableInv blockCount blockHalfStride) s

/-- The final pass of `ntt_neg_backward`: multiply every entry by the
`INV_D` constant (`D^-1 mod q`) through `_mm256_mod_mul32` and reduce to
`[0, q)`. -/
def ntt_backward_final (D q : Nat) (s : Nat → Nat) : Nat → Nat :=
  let invD := mod_inverse D q % q
  let invDRatio32 := get_ratio32 q (mod_inverse D q % q)
  forN D (fun i s =>
    upd s i (mm256ReduceHalfLane (mm256ModMul32Lane (s i) invD invDRatio32 q) q)) s

/-- `ntt_neg_backward` from `ntt.rs`: `LOG_D` Gentleman--Sande rounds over
the bit-reversed inverse-twiddle table, then the `INV_D` scaling pass. -/
def ntt_neg_backward (D q W : Nat) (values : Nat → Nat) : Nat → Nat :=
  let tableInv := get_powers_bit_reversed D q (mod_inverse W q % q)
  ntt_backward_final D q (forN (Nat.log 2 D) (ntt_backward_round D q tableInv) values)

theorem wsub32_as_sub {X Y : Nat} (h : Y ≤ X) (hlt : X - Y < 2 ^ 32) :
    wsub32 X Y = X - Y := by
  unfold wsub32
  omega

/-- The scalar `Wrapping<u32>` Shoup product in `ntt.rs` equals the exact
lazily-reduced product `w * y - q * ⌊ratio·y / 2^32⌋`, which is in `[0, 2q)`
and congruent to `w * y` modulo `q`. -/
theorem ntt_scalar_product_spec {q w ratio y : Nat} (hq : 0 < q) (hq30 : q < 2 ^ 30)
    (hw : w < q) (hratio : ratio = get_ratio32 q w) (hy : y < 4 * q) :
    wsub32 (w % 2 ^ 32 * (y % 2 ^ 32))
        (q % 2 ^ 32 * (((ratio * y % 2 ^ 64) >>> 32) % 2 ^ 32)) =
        w * y - q * (ratio * y / 2 ^ 32) ∧
      q * (ratio * y / 2 ^ 32) ≤ w * y ∧
      w * y - q * (ratio * y / 2 ^ 32) < 2 * q := by
  have hy32 : y < 2 ^ 32 := by omega
  have hw32 : w < 2 ^ 32 := by omega
  have hq32 : q < 2 ^ 32 := by omega
  have hratio32 : ratio < 2 ^ 32 := by
    rw [hratio]
    unfold get_ratio32
    rw [Nat.shiftLeft_eq]
    rw [Nat.div_lt_iff_lt_mul hq]
    calc w * 2 ^ 32 < q * 2 ^ 32 := (Nat.mul_lt_mul_right (by norm_num)).mpr hw
      _ = 2 ^ 32 * q := by ring
  have hprod64 : ratio * y < 2 ^ 64 := by
    calc ratio * y ≤ (2 ^ 32 - 1) * (2 ^ 32 - 1) := by
          exact Nat.mul_le_mul (by omega) (by omega)
      _ < 2 ^ 64 := by norm_num
  set quot := ratio * y / 2 ^ 32 with hquotdef
  have hquot32 : quot < 2 ^ 32 := by
    rw [hquotdef]
    omega
  have hle : q * quot ≤ w * y := by
    rw [hquotdef, hratio]
    exact shoup_quot_le q w y
  have hlt : w * y < q * quot + 2 * q := by
    rw [hquotdef, hratio]
    exact shoup_lt hq hy32
  have hmod64 : ratio * y % 2 ^ 64 = ratio * y := Nat.mod_eq_of_lt hprod64
  have hshift : (ratio * y % 2 ^ 64) >>> 32 = quot := by
    rw [hmod64, Nat.shiftRight_eq_div_pow, hquotdef]
  rw [hshift, Nat.mod_eq_of_lt hquot32, Nat.mod_eq_of_lt hy32, Nat.mod_eq_of_lt hw32,
    Nat.mod_eq_of_lt hq32]
  refine ⟨?_, hle, by omega⟩
  exact wsub32_as_sub hle (by omega)

/-- Congruence transfer: the lazily reduced Shoup product is `w * y` in
`ZMod q`. -/
theorem shoup_product_cast {q w y quot : Nat} (hle : q * quot ≤ w * y) :
    ((w * y - q * quot : Nat) : ZMod q) = (w : ZMod q) * (y : ZMod q) := by
  have h1 : ((w * y - q * quot : Nat) : ZMod q) =
      ((w * y : Nat) : ZMod q) - ((q * quot : Nat) : ZMod q) := Nat.cast_sub hle
  rw [h1]
  push_cast
  rw [ZMod.natCast_self]
  ring

/-- Behaviour of the scalar forward butterfly on in-range inputs: both
outputs stay below `4q` and are congruent to `x + w·y` and `x - w·y`. -/
theorem ntt_forward_butterfly_scalar_spec {q w ratio x y : Nat} (hq : 0 < q)
    (hq30 : q < 2 ^ 30) (hw : w < q) (hratio : ratio = get_ratio32 q w)
    (hx : x < 4 * q) (hy : y < 4 * q) :
    (ntt_forward_butterfly_scalar q w ratio x y).1 < 4 * q ∧
    (ntt_forward_butterfly_scalar q w ratio x y).2 < 4 * q ∧
    (((ntt_forward_butterfly_scalar q w ratio x y).1 : ZMod q) =
      (x : ZMod q) + (w : ZMod q) * (y : ZMod q)) ∧
    (((ntt_forward_butterfly_scalar q w ratio x y).2 : ZMod q) =
      (x : ZMod q) - (w : ZMod q) * (y : ZMod q)) := by
  obtain ⟨hpeq, hple, hplt⟩ := ntt_scalar_product_spec hq hq30 hw hratio hy
  set quot := ratio * y / 2 ^ 32 with hquotdef
  set P := w * y - q * quot with hPdef
  have hraw : ntt_forward_butterfly_scalar q w ratio x y =
      (((if 2 * q ≤ x then x - 2 * q else x) +
          wsub32 (w % 2 ^ 32 * (y % 2 ^ 32))
            (q % 2 ^ 32 * (((ratio * y % 2 ^ 64) >>> 32) % 2 ^ 32))) % 2 ^ 64,
        ((if 2 * q ≤ x then x - 2 * q else x) +
          wsub64 (2 * q)
            (wsub32 (w % 2 ^ 32 * (y % 2 ^ 32))
              (q % 2 ^ 32 * (((ratio * y % 2 ^ 64) >>> 32) % 2 ^ 32)))) % 2 ^ 64) := rfl
  have hbody : ntt_forward_butterfly_scalar q w ratio x y =
      (((if 2 * q ≤ x then x - 2 * q else x) + P) % 2 ^ 64,
        ((if 2 * q ≤ x then x - 2 * q else x) + wsub64 (2 * q) P) % 2 ^ 64) := by
    rw [hraw, hpeq]
  set x1 := if 2 * q ≤ x then x - 2 * q else x with hx1def
  have hx1lt : x1 < 2 * q := by
    rw [hx1def]
    split <;> omega
  have hx1cast : ((x1 : Nat) : ZMod q) = (x : ZMod q) := by
    rw [hx1def]
    by_cases hcase : 2 * q ≤ x
    · simp only [hcase, if_true]
      have h2q : ((x - 2 * q : Nat) : ZMod q) = (x : ZMod q) - ((2 * q : Nat) : ZMod q) :=
        Nat.cast_sub hcase
      rw [h2q]
      push_cast
      rw [ZMod.natCast_self]
      ring
    · simp only [hcase, if_false]
  have hw64 : wsub64 (2 * q) P = 2 * q - P := wsub64_eq_sub (by omega) (by omega)
  have hfst : (ntt_forward_butterfly_scalar q w ratio x y).1 = x1 + P := by
    rw [hbody]
    simp only []
    exact Nat.mod_eq_of_lt (by omega)
  have hsnd : (ntt_forward_butterfly_scalar q w ratio x y).2 = x1 + (2 * q - P) := by
    rw [hbody]
    simp only []
    rw [hw64]
    exact Nat.mod_eq_of_lt (by omega)
  have hPcast : ((P : Nat) : ZMod q) = (w : ZMod q) * (y : ZMod q) := by
    rw [hPdef]
    exact shoup_product_cast hple
  refine ⟨by omega, by omega, ?_, ?_⟩
  · rw [hfst]
    push_cast
    rw [hPcast]
    rw [hx1cast]
  · rw [hsnd]
    have hsub : ((x1 + (2 * q - P) : Nat) : ZMod q) =
        (x1 : ZMod q) + ((2 * q - P : Nat) : ZMod q) := by push_cast; ring
    rw [hsub, hx1cast]
    have h2 : ((2 * q - P : Nat) : ZMod q) = ((2 * q : Nat) : ZMod q) - (P : ZMod q) :=
      Nat.cast_sub (by omega)
    rw [h2, hPcast]
    push_cast
    rw [ZMod.natCast_self]
    ring
/-- On in-range inputs the AVX2 forward butterfly lane computes exactly the
scalar forward butterfly. -/
theorem ntt_forward_butterfly_simd_eq_scalar {q w ratio x y : Nat} (hq : 0 < q)
    (hq30 : q < 2 ^ 30) (hw : w < q) (hratio : ratio = get_ratio32 q w)
    (hx : x < 4 * q) (hy : y < 4 * q) :
    ntt_forward_butterfly_simd q w ratio x y = ntt_forward_butterfly_scalar q w ratio x y := by
  obtain ⟨hpeq, hple, hplt⟩ := ntt_scalar_product_spec hq hq30 hw hratio hy
  obtain ⟨hleq, hle2, hlt2⟩ := mm256ModMul32Lane_spec hq hq30 hw hratio hy
  have hx1 : mm256ReduceHalfLane x (2 * q) = if 2 * q ≤ x then x - 2 * q else x :=
    mm256ReduceHalfLane_eq (by omega) (by omega)
  have hsimdraw : ntt_forward_butterfly_simd q w ratio x y =
      ((mm256ReduceHalfLane x (2 * q) + mm256ModMul32Lane y w ratio q) % 2 ^ 64,
        (mm256ReduceHalfLane x (2 * q) +
          wsub64 (2 * q) (mm256ModMul32Lane y w ratio q)) % 2 ^ 64) := rfl
  have hscalraw : ntt_forward_butterfly_scalar q w ratio x y =
      (((if 2 * q ≤ x then x - 2 * q else x) +
          wsub32 (w % 2 ^ 32 * (y % 2 ^ 32))
            (q % 2 ^ 32 * (((ratio * y % 2 ^ 64) >>> 32) % 2 ^ 32))) % 2 ^ 64,
        ((if 2 * q ≤ x then x - 2 * q else x) +
          wsub64 (2 * q)
            (wsub32 (w % 2 ^ 32 * (y % 2 ^ 32))
              (q % 2 ^ 32 * (((ratio * y % 2 ^ 64) >>> 32) % 2 ^ 32)))) % 2 ^ 64) := rfl
  rw [hsimdraw, hscalraw, hx1, hpeq, hleq]

/-- Behaviour of the scalar backward (Gentleman--Sande) butterfly on
in-range inputs: both outputs stay below `2q` and are congruent to `x + y`
and `w · (x - y)`. -/
theorem ntt_backward_butterfly_scalar_spec {q w ratio x y : Nat} (hq : 0 < q)
    (hq30 : q < 2 ^ 30) (hw : w < q) (hratio : ratio = get_ratio32 q w)
    (hx : x < 2 * q) (hy : y < 2 * q) :
    (ntt_backward_butterfly_scalar q w ratio x y).1 < 2 * q ∧
    (ntt_backward_butterfly_scalar q w ratio x y).2 < 2 * q ∧
    (((ntt_backward_butterfly_scalar q w ratio x y).1 : ZMod q) =
      (x : ZMod q) + (y : ZMod q)) ∧
    (((ntt_backward_butterfly_scalar q w ratio x y).2 : ZMod q) =
      (w : ZMod q) * ((x : ZMod q) - (y : ZMod q))) := by
  have hsum : (wsub64 x y + 2 * q) % 2 ^ 64 = x + 2 * q - y := by
    unfold wsub64
    omega
  have hsumlt : x + 2 * q - y < 4 * q := by omega
  obtain ⟨hpeq, hple, hplt⟩ :=
    ntt_scalar_product_spec hq hq30 hw hratio (y := x + 2 * q - y) hsumlt
  have hraw : ntt_backward_butterfly_scalar q w ratio x y =
      (if 2 * q ≤ (x + y) % 2 ^ 64 then (x + y) % 2 ^ 64 - 2 * q else (x + y) % 2 ^ 64,
        wsub32 (w % 2 ^ 32 * ((wsub64 x y + 2 * q) % 2 ^ 64 % 2 ^ 32))
          (q % 2 ^ 32 *
            (((ratio * ((wsub64 x y + 2 * q) % 2 ^ 64) % 2 ^ 64) >>> 32) % 2 ^ 32))) := rfl
  have hxy64 : (x + y) % 2 ^ 64 = x + y := Nat.mod_eq_of_lt (by omega)
  set s := x + 2 * q - y with hsdef
  set quot := ratio * s / 2 ^ 32 with hquotdef
  set P := w * s - q * quot with hPdef
  have hfst : (ntt_backward_butterfly_scalar q w ratio x y).1 =
      if 2 * q ≤ x + y then x + y - 2 * q else x + y := by
    rw [hraw, hxy64]
  have hsnd : (ntt_backward_butterfly_scalar q w ratio x y).2 = P := by
    rw [hraw, hsum]
    exact hpeq
  have hscast : ((s : Nat) : ZMod q) = (x : ZMod q) - (y : ZMod q) := by
    rw [hsdef]
    have hstep : ((x + 2 * q - y : Nat) : ZMod q) =
        ((x + 2 * q : Nat) : ZMod q) - (y : ZMod q) := Nat.cast_sub (by omega)
    rw [hstep]
    push_cast
    rw [ZMod.natCast_self]
    ring
  refine ⟨?_, ?_, ?_, ?_⟩
  · rw [hfst]
    split <;> omega
  · rw [hsnd, hPdef]
    omega
  · rw [hfst]
    by_cases hcase : 2 * q ≤ x + y
    · simp only [hcase, if_true]
      have hstep : ((x + y - 2 * q : Nat) : ZMod q) =
          ((x + y : Nat) : ZMod q) - ((2 * q : Nat) : ZMod q) := Nat.cast_sub hcase
      rw [hstep]
      push_cast
      rw [ZMod.natCast_self]
      ring
    · simp only [hcase, if_false]
      push_cast
      ring
  · rw [hsnd, hPdef]
    have := @shoup_product_cast q w s quot hple
    rw [this, hscast]
theorem butterflyStep_get (B : Nat → Nat → Nat × Nat) (half base k : Nat) (s : Nat → Nat)
    (j : Nat) :
    butterflyStep B half base k s j =
      if j = base + k + half then (B (s (base + k)) (s (base + k + half))).2
      else if j = base + k then (B (s (base + k)) (s (base + k + half))).1
      else s j := by
  unfold butterflyStep upd
  rfl

/-- Characterization of the inner butterfly loop: entries in the left half of
the block become the first butterfly component, entries in the right half the
second, and everything else is untouched; all reads are from the incoming
state. -/
theorem butterflyLoop_get (B : Nat → Nat → Nat × Nat) {half : Nat} (hhalf : 0 < half)
    (base : Nat) (s : Nat → Nat) (j : Nat) :
    butterflyLoop B half base s j =
      if base ≤ j ∧ j < base + half then (B (s j) (s (j + half))).1
      else if base + half ≤ j ∧ j < base + half + half then (B (s (j - half)) (s j)).2
      else s j := by
  have haux : ∀ k, k ≤ half → ∀ j,
      forN k (butterflyStep B half base) s j =
        if base ≤ j ∧ j < base + k then (B (s j) (s (j + half))).1
        else if base + half ≤ j ∧ j < base + half + k then (B (s (j - half)) (s j)).2
        else s j := by
    intro k
    induction k with
    | zero =>
      intro _ j
      simp only [forN]
      rw [if_neg (by omega), if_neg (by omega)]
    | succ k ih =>
      intro hk j
      have hk' : k ≤ half := by omega
      simp only [forN]
      rw [butterflyStep_get]
      have hleftval : forN k (butterflyStep B half base) s (base + k) = s (base + k) := by
        rw [ih hk' (base + k), if_neg (by omega), if_neg (by omega)]
      have hrightval : forN k (butterflyStep B half base) s (base + k + half) =
          s (base + k + half) := by
        rw [ih hk' (base + k + half), if_neg (by omega), if_neg (by omega)]
      rw [hleftval, hrightval]
      by_cases hj1 : j = base + k + half
      · rw [if_pos hj1, if_neg (by omega), if_pos (by omega)]
        subst hj1
        have hsub : base + k + half - half = base + k := by omega
        rw [hsub]
      · rw [if_neg hj1]
        by_cases hj2 : j = base + k
        · rw [if_pos hj2, if_pos (by omega)]
          subst hj2
          rfl
        · rw [if_neg hj2, ih hk' j]
          by_cases hc1 : base ≤ j ∧ j < base + k
          · rw [if_pos hc1, if_pos (by omega)]
          · rw [if_neg hc1]
            by_cases hc2 : base + half ≤ j ∧ j < base + half + k
            · rw [if_pos hc2, if_neg (by omega), if_pos (by omega)]
            · rw [if_neg hc2, if_neg (by omega), if_neg (by omega)]
  have h := haux half (le_refl half) j
  unfold butterflyLoop
  exact h
/-- Generic characterization of a loop over disjoint blocks of length `L`:
if each block transformer only writes inside its own window and only reads
inside its own window, the fold acts blockwise on the initial state. -/
theorem blocksLoop_get (F : Nat → (Nat → Nat) → Nat → Nat) (L : Nat) (s : Nat → Nat)
    (hframe : ∀ bi t j, j < bi * L ∨ (bi + 1) * L ≤ j → F bi t j = t j)
    (hlocal : ∀ bi t t', (∀ i, bi * L ≤ i → i < (bi + 1) * L → t i = t' i) →
      ∀ j, bi * L ≤ j → j < (bi + 1) * L → F bi t j = F bi t' j) :
    ∀ n j, forN n F s j = if j < n * L then F (j / L) s j else s j := by
  intro n
  induction n with
  | zero =>
    intro j
    simp [forN]
  | succ n ih =>
    intro j
    simp only [forN]
    by_cases hc : j < n * L
    · rw [hframe n (forN n F s) j (Or.inl hc), ih j, if_pos hc,
        if_pos (show j < (n + 1) * L by nlinarith)]
    · by_cases hc2 : j < (n + 1) * L
      · have hjn : n * L ≤ j := by omega
        have hL : 0 < L := by
          rcases Nat.eq_zero_or_pos L with h0 | h
          · subst h0
            simp at hc2
          · exact h
        have hlocstep : F n (forN n F s) j = F n s j := by
          refine hlocal n (forN n F s) s ?_ j hjn hc2
          intro i hi1 _
          have hi' : ¬ i < n * L := by omega
          rw [ih i, if_neg hi']
        rw [hlocstep, if_pos hc2]
        have hdiv : j / L = n := Nat.div_eq_of_lt_le hjn hc2
        rw [hdiv]
      · rw [hframe n (forN n F s) j (Or.inr (by omega)), ih j, if_neg (by omega),
          if_neg hc2]
/-- The exact (ZMod-valued) twiddle used by round `r`, block `b` of the
forward transform: `W ^ reverse_bits(2^r + b)`. -/
def ntt_twiddle (q W d r b : Nat) : ZMod q := (W : ZMod q) ^ reverse_bits d (2 ^ r + b)

/-- The exact twiddle used by round `r`, block `b` of the backward
transform: `(W^-1) ^ reverse_bits(2^(d-1-r) + b)`. -/
def ntt_twiddle_inv (q W d r b : Nat) : ZMod q :=
  ((mod_inverse W q : Nat) : ZMod q) ^ reverse_bits d (2 ^ (d - 1 - r) + b)

/-- Exact arithmetic (ZMod-valued) model of one forward round. -/
def ntt_math_forward_round (q W d r : Nat) (f : Nat → ZMod q) : Nat → ZMod q := fun i =>
  let half := 2 ^ (d - 1 - r)
  let b := i / (2 * half)
  if i % (2 * half) < half then f i + ntt_twiddle q W d r b * f (i + half)
  else f (i - half) - ntt_twiddle q W d r b * f i

/-- Exact arithmetic (ZMod-valued) model of one backward round. -/
def ntt_math_backward_round (q W d r : Nat) (f : Nat → ZMod q) : Nat → ZMod q := fun i =>
  let half := 2 ^ r
  let b := i / (2 * half)
  if i % (2 * half) < half then f i + f (i + half)
  else ntt_twiddle_inv q W d r b * (f (i - half) - f i)

/-- The AVX2 forward butterfly satisfies the same contract as the scalar
one. -/
theorem ntt_forward_butterfly_simd_spec {q w ratio x y : Nat} (hq : 0 < q)
    (hq30 : q < 2 ^ 30) (hw : w < q) (hratio : ratio = get_ratio32 q w)
    (hx : x < 4 * q) (hy : y < 4 * q) :
    (ntt_forward_butterfly_simd q w ratio x y).1 < 4 * q ∧
    (ntt_forward_butterfly_simd q w ratio x y).2 < 4 * q ∧
    (((ntt_forward_butterfly_simd q w ratio x y).1 : ZMod q) =
      (x : ZMod q) + (w : ZMod q) * (y : ZMod q)) ∧
    (((ntt_forward_butterfly_simd q w ratio x y).2 : ZMod q) =
      (x : ZMod q) - (w : ZMod q) * (y : ZMod q)) := by
  rw [ntt_forward_butterfly_simd_eq_scalar hq hq30 hw hratio hx hy]
  exact ntt_forward_butterfly_scalar_spec hq hq30 hw hratio hx hy

/-- Twiddle-table entries are `< q` and cast to powers of `W` in `ZMod q`. -/
theorem table_entry_spec {d q W j : Nat} (hq : 0 < q) (hj : j < 2 ^ d) :
    get_powers_bit_reversed (2 ^ d) q (W % q) j < q ∧
      ((get_powers_bit_reversed (2 ^ d) q (W % q) j : Nat) : ZMod q) =
        (W : ZMod q) ^ reverse_bits d j := by
  rw [get_powers_bit_reversed_eq hj]
  refine ⟨Nat.mod_lt _ hq, ?_⟩
  rw [ZMod.natCast_mod, Nat.cast_pow, ZMod.natCast_mod]

/-- Inverse-twiddle-table entries are `< q` and cast to powers of
`mod_inverse W q` in `ZMod q`. -/
theorem table_inv_entry_spec {d q W j : Nat} (hq : 0 < q) (hj : j < 2 ^ d) :
    get_powers_bit_reversed (2 ^ d) q (mod_inverse W q % q) j < q ∧
      ((get_powers_bit_reversed (2 ^ d) q (mod_inverse W q % q) j : Nat) : ZMod q) =
        ((mod_inverse W q : Nat) : ZMod q) ^ reverse_bits d j := by
  rw [get_powers_bit_reversed_eq hj]
  refine ⟨Nat.mod_lt _ hq, ?_⟩
  rw [ZMod.natCast_mod, Nat.cast_pow, ZMod.natCast_mod]

/-- `D >> (1 + r) = 2^(d-1-r)` for `r < d`, `D = 2^d`. -/
theorem shiftRight_pow {d r : Nat} (hr : r < d) : 2 ^ d >>> (1 + r) = 2 ^ (d - 1 - r) := by
  rw [Nat.shiftRight_eq_div_pow]
  rw [Nat.pow_div (by omega) (by norm_num)]
  congr 1
  omega

/-- The code state/exact state relation: below `D` all entries are below the
given bound and cast to the exact value. -/
def StateOK (q D bound : Nat) (v : Nat → Nat) (f : Nat → ZMod q) : Prop :=
  ∀ i, i < D → v i < bound ∧ (v i : ZMod q) = f i

/-- Bridge for one forward round: on in-range states the code round computes
the exact round, keeping all entries below `4q`. -/
theorem ntt_forward_round_bridge {d q W r : Nat} (hq : 0 < q) (hq30 : q < 2 ^ 30)
    (hr : r < d) {v : Nat → Nat} {f : Nat → ZMod q}
    (hrel : StateOK q (2 ^ d) (4 * q) v f) :
    StateOK q (2 ^ d) (4 * q)
      (ntt_forward_round (2 ^ d) q (get_powers_bit_reversed (2 ^ d) q (W % q)) r v)
      (ntt_math_forward_round q W d r f) := by
  set table := get_powers_bit_reversed (2 ^ d) q (W % q) with htabledef
  set half := 2 ^ (d - 1 - r) with hhalfdef
  have hhalfpos : 0 < half := Nat.pos_pow_of_pos _ (by norm_num)
  have hshift : 2 ^ d >>> (1 + r) = half := shiftRight_pow hr
  have hbc : 2 ^ r * (2 * half) = 2 ^ d := by
    rw [hhalfdef]
    have : (2 : Nat) ^ r * (2 * 2 ^ (d - 1 - r)) = 2 ^ (r + 1 + (d - 1 - r)) := by
      rw [Nat.pow_add, Nat.pow_add]
      ring
    rw [this]
    congr 1
    omega
  have hblockraw : ∀ bi t, ntt_forward_block q table (2 ^ r) half bi t =
      if half < 4 then
        butterflyLoop (ntt_forward_butterfly_scalar q (table (2 ^ r + bi))
          (get_ratio32 q (table (2 ^ r + bi)))) half (bi * (2 * half)) t
      else
        butterflyLoop (ntt_forward_butterfly_simd q (table (2 ^ r + bi))
          (get_ratio32 q (table (2 ^ r + bi)))) half (bi * (2 * half)) t := by
    intro bi t
    rfl
  have hwindow : ∀ bi : Nat, (bi + 1) * (2 * half) = bi * (2 * half) + 2 * half := by
    intro bi
    ring
  have hframe : ∀ bi t j, j < bi * (2 * half) ∨ (bi + 1) * (2 * half) ≤ j →
      ntt_forward_block q table (2 ^ r) half bi t j = t j := by
    intro bi t j hj
    rw [hwindow] at hj
    rw [hblockraw]
    split <;>
      · rw [butterflyLoop_get _ hhalfpos]
        rw [if_neg (by omega), if_neg (by omega)]
  have hlocal : ∀ bi t t', (∀ i, bi * (2 * half) ≤ i → i < (bi + 1) * (2 * half) → t i = t' i) →
      ∀ j, bi * (2 * half) ≤ j → j < (bi + 1) * (2 * half) →
        ntt_forward_block q table (2 ^ r) half bi t j =
          ntt_forward_block q table (2 ^ r) half bi t' j := by
    intro bi t t' hagree j hj1 hj2
    rw [hwindow] at hj2
    rw [hblockraw, hblockraw]
    split <;>
      · rw [butterflyLoop_get _ hhalfpos, butterflyLoop_get _ hhalfpos]
        by_cases hc1 : bi * (2 * half) ≤ j ∧ j < bi * (2 * half) + half
        · rw [if_pos hc1, if_pos hc1, hagree j (by omega) (by rw [hwindow]; omega),
            hagree (j + half) (by omega) (by rw [hwindow]; omega)]
        · rw [if_neg hc1, if_neg hc1]
          have hc2 : bi * (2 * half) + half ≤ j ∧ j < bi * (2 * half) + half + half := by
            omega
          rw [if_pos hc2, if_pos hc2, hagree j (by omega) (by rw [hwindow]; omega),
            hagree (j - half) (by omega) (by rw [hwindow]; omega)]
  intro i hi
  have hroundraw : ntt_forward_round (2 ^ d) q table r v =
      forN (2 ^ r) (ntt_forward_block q table (2 ^ r) (2 ^ d >>> (1 + r))) v := rfl
  have hget := blocksLoop_get (ntt_forward_block q table (2 ^ r) half) (2 * half) v
    hframe hlocal (2 ^ r) i
  have hin : i < 2 ^ r * (2 * half) := by rw [hbc]; exact hi
  rw [hroundraw, hshift, hget, if_pos hin]
  -- the block containing i
  set b := i / (2 * half) with hbdef
  have hblt : b < 2 ^ r := by
    rw [hbdef, Nat.div_lt_iff_lt_mul (by omega : 0 < 2 * half)]
    calc i < 2 ^ r * (2 * half) := hin
      _ = 2 ^ r * (2 * half) := by ring
  have hdm := Nat.div_add_mod i (2 * half)
  have hio : i = b * (2 * half) + i % (2 * half) := by
    rw [hbdef]
    calc i = 2 * half * (i / (2 * half)) + i % (2 * half) := hdm.symm
      _ = i / (2 * half) * (2 * half) + i % (2 * half) := by ring
  have homod : i % (2 * half) < 2 * half := Nat.mod_lt _ (by omega)
  have hwinb := hwindow b
  have htabidx : 2 ^ r + b < 2 ^ d := by
    have h1 : 2 ^ r + b < 2 ^ (r + 1) := by
      have : (2 : Nat) ^ (r + 1) = 2 ^ r + 2 ^ r := by rw [Nat.pow_succ]; ring
      omega
    have h2 : (2 : Nat) ^ (r + 1) ≤ 2 ^ d := Nat.pow_le_pow_right (by norm_num) (by omega)
    omega
  obtain ⟨hwlt, hwcast⟩ := table_entry_spec (W := W) hq htabidx
  have hmath : ntt_math_forward_round q W d r f i =
      if i % (2 * half) < half then f i + ntt_twiddle q W d r b * f (i + half)
      else f (i - half) - ntt_twiddle q W d r b * f i := rfl
  have htwiddle : ((table (2 ^ r + b) : Nat) : ZMod q) = ntt_twiddle q W d r b := by
    rw [htabledef, hwcast]
    rfl
  by_cases hcase : i % (2 * half) < half
  · -- left half of the block
    have hc1 : b * (2 * half) ≤ i ∧ i < b * (2 * half) + half := by omega
    have hihalf : i + half < 2 ^ d := by
      have : i + half < (b + 1) * (2 * half) := by omega
      have hble : (b + 1) * (2 * half) ≤ 2 ^ r * (2 * half) := by
        exact Nat.mul_le_mul_right _ (by omega)
      omega
    obtain ⟨hvx, hfx⟩ := hrel i hi
    obtain ⟨hvy, hfy⟩ := hrel (i + half) hihalf
    have hspec : ∀ bfly : Nat → Nat → Nat × Nat,
        (∀ x y, x < 4 * q → y < 4 * q →
          (bfly x y).1 < 4 * q ∧ (bfly x y).2 < 4 * q ∧
          ((bfly x y).1 : ZMod q) = (x : ZMod q) + ((table (2 ^ r + b) : Nat) : ZMod q) * y ∧
          ((bfly x y).2 : ZMod q) = (x : ZMod q) - ((table (2 ^ r + b) : Nat) : ZMod q) * y) →
        (butterflyLoop bfly half (b * (2 * half)) v i < 4 * q ∧
          ((butterflyLoop bfly half (b * (2 * half)) v i : Nat) : ZMod q) =
            ntt_math_forward_round q W d r f i) := by
      intro bfly hb
      rw [butterflyLoop_get _ hhalfpos, if_pos hc1]
      obtain ⟨h1, _, h3, _⟩ := hb (v i) (v (i + half)) hvx hvy
      refine ⟨h1, ?_⟩
      rw [h3, hmath, if_pos hcase, hfx, hfy, htwiddle]
    rw [hblockraw]
    split
    · exact hspec _ (fun x y hx hy =>
        ntt_forward_butterfly_scalar_spec hq hq30 hwlt rfl hx hy)
    · exact hspec _ (fun x y hx hy =>
        ntt_forward_butterfly_simd_spec hq hq30 hwlt rfl hx hy)
  · -- right half of the block
    have hc1 : ¬ (b * (2 * half) ≤ i ∧ i < b * (2 * half) + half) := by omega
    have hc2 : b * (2 * half) + half ≤ i ∧ i < b * (2 * half) + half + half := by omega
    have hihalf : i - half < 2 ^ d := by omega
    obtain ⟨hvx, hfx⟩ := hrel (i - half) hihalf
    obtain ⟨hvy, hfy⟩ := hrel i hi
    have hspec : ∀ bfly : Nat → Nat → Nat × Nat,
        (∀ x y, x < 4 * q → y < 4 * q →
          (bfly x y).1 < 4 * q ∧ (bfly x y).2 < 4 * q ∧
          ((bfly x y).1 : ZMod q) = (x : ZMod q) + ((table (2 ^ r + b) : Nat) : ZMod q) * y ∧
          ((bfly x y).2 : ZMod q) = (x : ZMod q) - ((table (2 ^ r + b) : Nat) : ZMod q) * y) →
        (butterflyLoop bfly half (b * (2 * half)) v i < 4 * q ∧
          ((butterflyLoop bfly half (b * (2 * half)) v i : Nat) : ZMod q) =
            ntt_math_forward_round q W d r f i) := by
      intro bfly hb
      rw [butterflyLoop_get _ hhalfpos, if_neg hc1, if_pos hc2]
      obtain ⟨_, h2, _, h4⟩ := hb (v (i - half)) (v i) hvx hvy
      refine ⟨h2, ?_⟩
      rw [h4, hmath, if_neg hcase, hfx, hfy, htwiddle]
    rw [hblockraw]
    split
    · exact hspec _ (fun x y hx hy =>
        ntt_forward_butterfly_scalar_spec hq hq30 hwlt rfl hx hy)
    · exact hspec _ (fun x y hx hy =>
        ntt_forward_butterfly_simd_spec hq hq30 hwlt rfl hx hy)
/-- Bridge for one backward round: on in-range states the code round
computes the exact backward round, keeping all entries below `2q`. -/
theorem ntt_backward_round_bridge {d q W r : Nat} (hq : 0 < q) (hq30 : q < 2 ^ 30)
    (hr : r < d) {v : Nat → Nat} {f : Nat → ZMod q}
    (hrel : StateOK q (2 ^ d) (2 * q) v f) :
    StateOK q (2 ^ d) (2 * q)
      (ntt_backward_round (2 ^ d) q
        (get_powers_bit_reversed (2 ^ d) q (mod_inverse W q % q)) r v)
      (ntt_math_backward_round q W d r f) := by
  set table := get_powers_bit_reversed (2 ^ d) q (mod_inverse W q % q) with htabledef
  set half := 2 ^ r with hhalfdef
  set bc := 2 ^ (d - 1 - r) with hbcdef
  have hhalfpos : 0 < half := Nat.pos_pow_of_pos _ (by norm_num)
  have hshift : 2 ^ d >>> (1 + r) = bc := shiftRight_pow hr
  have hbc : bc * (2 * half) = 2 ^ d := by
    rw [hbcdef, hhalfdef]
    have h1 : (2 : Nat) ^ (d - 1 - r) * (2 * 2 ^ r) = 2 ^ (d - 1 - r + (r + 1)) := by
      rw [Nat.pow_add, Nat.pow_add]
      ring
    rw [h1]
    congr 1
    omega
  have hblockraw : ∀ bi t, ntt_backward_block q table bc half bi t =
      butterflyLoop (ntt_backward_butterfly_scalar q (table (bc + bi))
        (get_ratio32 q (table (bc + bi)))) half (bi * (2 * half)) t := by
    intro bi t
    rfl
  have hwindow : ∀ bi : Nat, (bi + 1) * (2 * half) = bi * (2 * half) + 2 * half := by
    intro bi
    ring
  have hframe : ∀ bi t j, j < bi * (2 * half) ∨ (bi + 1) * (2 * half) ≤ j →
      ntt_backward_block q table bc half bi t j = t j := by
    intro bi t j hj
    rw [hwindow] at hj
    rw [hblockraw, butterflyLoop_get _ hhalfpos, if_neg (by omega), if_neg (by omega)]
  have hlocal : ∀ bi t t', (∀ i, bi * (2 * half) ≤ i → i < (bi + 1) * (2 * half) → t i = t' i) →
      ∀ j, bi * (2 * half) ≤ j → j < (bi + 1) * (2 * half) →
        ntt_backward_block q table bc half bi t j =
          ntt_backward_block q table bc half bi t' j := by
    intro bi t t' hagree j hj1 hj2
    rw [hwindow] at hj2
    rw [hblockraw, hblockraw, butterflyLoop_get _ hhalfpos, butterflyLoop_get _ hhalfpos]
    by_cases hc1 : bi * (2 * half) ≤ j ∧ j < bi * (2 * half) + half
    · rw [if_pos hc1, if_pos hc1, hagree j (by omega) (by rw [hwindow]; omega),
        hagree (j + half) (by omega) (by rw [hwindow]; omega)]
    · rw [if_neg hc1, if_neg hc1]
      have hc2 : bi * (2 * half) + half ≤ j ∧ j < bi * (2 * half) + half + half := by omega
      rw [if_pos hc2, if_pos hc2, hagree j (by omega) (by rw [hwindow]; omega),
        hagree (j - half) (by omega) (by rw [hwindow]; omega)]
  intro i hi
  have hroundraw : ntt_backward_round (2 ^ d) q table r v =
      forN (2 ^ d >>> (1 + r)) (ntt_backward_block q table (2 ^ d >>> (1 + r)) (2 ^ r)) v :=
    rfl
  have hget := blocksLoop_get (ntt_backward_block q table bc half) (2 * half) v
    hframe hlocal bc i
  have hin : i < bc * (2 * half) := by rw [hbc]; exact hi
  rw [hroundraw, hshift, hget, if_pos hin]
  set b := i / (2 * half) with hbdef
  have hblt : b < bc := by
    rw [hbdef, Nat.div_lt_iff_lt_mul (by omega : 0 < 2 * half)]
    calc i < bc * (2 * half) := hin
      _ = bc * (2 * half) := by ring
  have hdm := Nat.div_add_mod i (2 * half)
  have hio : i = b * (2 * half) + i % (2 * half) := by
    rw [hbdef]
    calc i = 2 * half * (i / (2 * half)) + i % (2 * half) := hdm.symm
      _ = i / (2 * half) * (2 * half) + i % (2 * half) := by ring
  have homod : i % (2 * half) < 2 * half := Nat.mod_lt _ (by omega)
  have hwinb := hwindow b
  have htabidx : bc + b < 2 ^ d := by
    have h1 : bc + b < 2 ^ (d - 1 - r + 1) := by
      have h2 : (2 : Nat) ^ (d - 1 - r + 1) = bc + bc := by
        rw [hbcdef, Nat.pow_succ]
        ring
      omega
    have h2 : (2 : Nat) ^ (d - 1 - r + 1) ≤ 2 ^ d := Nat.pow_le_pow_right (by norm_num) (by omega)
    omega
  obtain ⟨hwlt, hwcast⟩ := table_inv_entry_spec (W := W) hq htabidx
  have hmath : ntt_math_backward_round q W d r f i =
      if i % (2 * half) < half then f i + f (i + half)
      else ntt_twiddle_inv q W d r b * (f (i - half) - f i) := rfl
  have htwiddle : ((table (bc + b) : Nat) : ZMod q) = ntt_twiddle_inv q W d r b := by
    rw [htabledef, hwcast]
    rfl
  rw [hblockraw, butterflyLoop_get _ hhalfpos]
  by_cases hcase : i % (2 * half) < half
  · have hc1 : b * (2 * half) ≤ i ∧ i < b * (2 * half) + half := by omega
    have hihalf : i + half < 2 ^ d := by
      have h1 : i + half < (b + 1) * (2 * half) := by omega
      have hble : (b + 1) * (2 * half) ≤ bc * (2 * half) :=
        Nat.mul_le_mul_right _ (by omega)
      omega
    obtain ⟨hvx, hfx⟩ := hrel i hi
    obtain ⟨hvy, hfy⟩ := hrel (i + half) hihalf
    rw [if_pos hc1]
    obtain ⟨h1, _, h3, _⟩ :=
      ntt_backward_butterfly_scalar_spec hq hq30 hwlt rfl hvx hvy
    refine ⟨h1, ?_⟩
    rw [h3, hmath, if_pos hcase, hfx, hfy]
  · have hc1 : ¬ (b * (2 * half) ≤ i ∧ i < b * (2 * half) + half) := by omega
    have hc2 : b * (2 * half) + half ≤ i ∧ i < b * (2 * half) + half + half := by omega
    have hihalf : i - half < 2 ^ d := by omega
    obtain ⟨hvx, hfx⟩ := hrel (i - half) hihalf
    obtain ⟨hvy, hfy⟩ := hrel i hi
    rw [if_neg hc1, if_pos hc2]
    obtain ⟨_, h2, _, h4⟩ :=
      ntt_backward_butterfly_scalar_spec hq hq30 hwlt rfl hvx hvy
    refine ⟨h2, ?_⟩
    rw [h4, hmath, if_neg hcase, hfx, hfy, htwiddle]
/-- One iteration of a final pass: `s[i] = g(s[i])`. -/
def mapStep (g : Nat → Nat) (i : Nat) (s : Nat → Nat) : Nat → Nat := upd s i (g (s i))

theorem mapStep_get (g : Nat → Nat) (i : Nat) (s : Nat → Nat) (j : Nat) :
    mapStep g i s j = if j = i then g (s i) else s j := by
  unfold mapStep upd
  rfl

/-- Characterization of a final pass `for i in 0..n { s[i] = g(s[i]) }`. -/
theorem mapLoop_get (g : Nat → Nat) (s : Nat → Nat) :
    ∀ n j, forN n (mapStep g) s j = if j < n then g (s j) else s j := by
  intro n
  induction n with
  | zero =>
    intro j
    simp [forN]
  | succ n ih =>
    intro j
    simp only [forN]
    rw [mapStep_get]
    have hn : forN n (mapStep g) s n = s n := by
      rw [ih n, if_neg (by omega)]
    by_cases hj : j = n
    · subst hj
      rw [if_pos rfl, hn, if_pos (by omega)]
    · rw [if_neg hj, ih j]
      by_cases hc : j < n
      · rw [if_pos hc, if_pos (by omega)]
      · rw [if_neg hc, if_neg (by omega)]

/-- The two-step `reduce_half` pass takes `[0, 4q)` to `[0, q)` without
changing the value mod `q`. -/
theorem reduce2_spec {q x : Nat} (hq : 0 < q) (hq30 : q < 2 ^ 30) (hx : x < 4 * q) :
    mm256ReduceHalfLane (mm256ReduceHalfLane x (2 * q)) q < q ∧
      ((mm256ReduceHalfLane (mm256ReduceHalfLane x (2 * q)) q : Nat) : ZMod q) =
        (x : ZMod q) := by
  have h1 : mm256ReduceHalfLane x (2 * q) = if 2 * q ≤ x then x - 2 * q else x :=
    mm256ReduceHalfLane_eq (by omega) (by omega)
  have hx1lt : mm256ReduceHalfLane x (2 * q) < 2 * q := by rw [h1]; split <;> omega
  have h2 : mm256ReduceHalfLane (mm256ReduceHalfLane x (2 * q)) q =
      if q ≤ mm256ReduceHalfLane x (2 * q) then mm256ReduceHalfLane x (2 * q) - q
      else mm256ReduceHalfLane x (2 * q) :=
    mm256ReduceHalfLane_eq (by omega) (by omega)
  constructor
  · rw [h2]
    split <;> omega
  · have hcast1 : ((mm256ReduceHalfLane x (2 * q) : Nat) : ZMod q) = (x : ZMod q) := by
      rw [h1]
      by_cases hc : 2 * q ≤ x
      · rw [if_pos hc, Nat.cast_sub hc]
        push_cast
        rw [ZMod.natCast_self]
        ring
      · rw [if_neg hc]
    rw [h2]
    by_cases hc : q ≤ mm256ReduceHalfLane x (2 * q)
    · rw [if_pos hc, Nat.cast_sub hc, hcast1, ZMod.natCast_self]
      ring
    · rw [if_neg hc, hcast1]

/-- Bridge for the forward final pass: canonicalizes all entries. -/
theorem ntt_forward_final_bridge {q D : Nat} (hq : 0 < q) (hq30 : q < 2 ^ 30)
    {v : Nat → Nat} {f : Nat → ZMod q} (hrel : StateOK q D (4 * q) v f) :
    StateOK q D q (ntt_forward_final D q v) f := by
  intro i hi
  have hraw : ntt_forward_final D q v i =
      forN D (mapStep (fun x => mm256ReduceHalfLane (mm256ReduceHalfLane x (2 * q)) q)) v i :=
    rfl
  rw [hraw, mapLoop_get, if_pos hi]
  obtain ⟨hvlt, hvcast⟩ := hrel i hi
  obtain ⟨hlt, hcast⟩ := reduce2_spec hq hq30 hvlt
  exact ⟨hlt, by rw [hcast, hvcast]⟩

/-- Per-entry specification of the backward final pass: multiply by
`INV_D` and canonicalize. -/
theorem backward_final_entry_spec {q D x : Nat} (hq : 0 < q) (hq30 : q < 2 ^ 30)
    (hx : x < 4 * q) :
    mm256ReduceHalfLane
        (mm256ModMul32Lane x (mod_inverse D q % q) (get_ratio32 q (mod_inverse D q % q)) q)
        q < q ∧
      ((mm256ReduceHalfLane
          (mm256ModMul32Lane x (mod_inverse D q % q) (get_ratio32 q (mod_inverse D q % q)) q)
          q : Nat) : ZMod q) =
        ((mod_inverse D q : Nat) : ZMod q) * (x : ZMod q) := by
  have hinv_lt : mod_inverse D q % q < q := Nat.mod_lt _ hq
  obtain ⟨heq, hle, hlt⟩ :=
    mm256ModMul32Lane_spec hq hq30 hinv_lt rfl hx
  have hPlt : mm256ModMul32Lane x (mod_inverse D q % q)
      (get_ratio32 q (mod_inverse D q % q)) q < 2 * q := by
    rw [heq]
    omega
  have hPcast : ((mm256ModMul32Lane x (mod_inverse D q % q)
      (get_ratio32 q (mod_inverse D q % q)) q : Nat) : ZMod q) =
      ((mod_inverse D q : Nat) : ZMod q) * (x : ZMod q) := by
    rw [heq]
    have hsh := @shoup_product_cast q (mod_inverse D q % q) x
      (get_ratio32 q (mod_inverse D q % q) * x / 2 ^ 32) hle
    rw [hsh, ZMod.natCast_mod]
  have hred : mm256ReduceHalfLane
      (mm256ModMul32Lane x (mod_inverse D q % q) (get_ratio32 q (mod_inverse D q % q)) q) q =
      if q ≤ mm256ModMul32Lane x (mod_inverse D q % q)
          (get_ratio32 q (mod_inverse D q % q)) q then
        mm256ModMul32Lane x (mod_inverse D q % q) (get_ratio32 q (mod_inverse D q % q)) q - q
      else mm256ModMul32Lane x (mod_inverse D q % q) (get_ratio32 q (mod_inverse D q % q)) q :=
    mm256ReduceHalfLane_eq (by omega) (by omega)
  constructor
  · rw [hred]
    split <;> omega
  · rw [hred]
    by_cases hc : q ≤ mm256ModMul32Lane x (mod_inverse D q % q)
        (get_ratio32 q (mod_inverse D q % q)) q
    · rw [if_pos hc, Nat.cast_sub hc, hPcast, ZMod.natCast_self]
      ring
    · rw [if_neg hc, hPcast]

/-- Bridge for the backward final pass: multiplies every entry by the exact
`D^-1` and canonicalizes. -/
theorem ntt_backward_final_bridge {q D : Nat} (hq : 0 < q) (hq30 : q < 2 ^ 30)
    {v : Nat → Nat} {f : Nat → ZMod q} (hrel : StateOK q D (2 * q) v f) :
    StateOK q D q (ntt_backward_final D q v)
      (fun i => ((mod_inverse D q : Nat) : ZMod q) * f i) := by
  intro i hi
  have hraw : ntt_backward_final D q v i =
      forN D (mapStep (fun x => mm256ReduceHalfLane
        (mm256ModMul32Lane x (mod_inverse D q % q) (get_ratio32 q (mod_inverse D q % q)) q)
        q)) v i := rfl
  rw [hraw, mapLoop_get, if_pos hi]
  obtain ⟨hvlt, hvcast⟩ := hrel i hi
  obtain ⟨hlt, hcast⟩ := backward_final_entry_spec (D := D) hq hq30 (by omega : v i < 4 * q)
  exact ⟨hlt, by rw [hcast, hvcast]⟩

/-- Bridge for the full stack of forward rounds. -/
theorem ntt_forward_rounds_bridge {d q W : Nat} (hq : 0 < q) (hq30 : q < 2 ^ 30)
    {v : Nat → Nat} {f : Nat → ZMod q} (hrel : StateOK q (2 ^ d) (4 * q) v f) :
    ∀ n, n ≤ d →
      StateOK q (2 ^ d) (4 * q)
        (forN n (ntt_forward_round (2 ^ d) q (get_powers_bit_reversed (2 ^ d) q (W % q))) v)
        (forN n (ntt_math_forward_round q W d) f) := by
  intro n
  induction n with
  | zero =>
    intro _
    exact hrel
  | succ n ih =>
    intro hn
    simp only [forN]
    exact ntt_forward_round_bridge hq hq30 (by omega) (ih (by omega))

/-- Bridge for the full stack of backward rounds. -/
theorem ntt_backward_rounds_bridge {d q W : Nat} (hq : 0 < q) (hq30 : q < 2 ^ 30)
    {v : Nat → Nat} {f : Nat → ZMod q} (hrel : StateOK q (2 ^ d) (2 * q) v f) :
    ∀ n, n ≤ d →
      StateOK q (2 ^ d) (2 * q)
        (forN n (ntt_backward_round (2 ^ d) q
          (get_powers_bit_reversed (2 ^ d) q (mod_inverse W q % q))) v)
        (forN n (ntt_math_backward_round q W d) f) := by
  intro n
  induction n with
  | zero =>
    intro _
    exact hrel
  | succ n ih =>
    intro hn
    simp only [forN]
    exact ntt_backward_round_bridge hq hq30 (by omega) (ih (by omega))

/-- Full bridge for `ntt_neg_forward`: on a canonical input the result is
canonical and computes the exact composite of the `d` forward rounds. -/
theorem ntt_neg_forward_bridge {d q W : Nat} (hq : 0 < q) (hq30 : q < 2 ^ 30)
    {v : Nat → Nat} (hv : ∀ i, i < 2 ^ d → v i < q) :
    StateOK q (2 ^ d) q (ntt_neg_forward (2 ^ d) q W v)
      (forN d (ntt_math_forward_round q W d) (fun i => ((v i : Nat) : ZMod q))) := by
  have hrel0 : StateOK q (2 ^ d) (4 * q) v (fun i => ((v i : Nat) : ZMod q)) := by
    intro i hi
    exact ⟨by have := hv i hi; omega, rfl⟩
  have hrounds := ntt_forward_rounds_bridge (W := W) hq hq30 hrel0 d (le_refl d)
  have hraw : ntt_neg_forward (2 ^ d) q W v =
      ntt_forward_final (2 ^ d) q
        (forN (Nat.log 2 (2 ^ d))
          (ntt_forward_round (2 ^ d) q (get_powers_bit_reversed (2 ^ d) q (W % q))) v) := rfl
  have hlog : Nat.log 2 (2 ^ d) = d := Nat.log_pow (by norm_num) d
  rw [hraw, hlog]
  exact ntt_forward_final_bridge hq hq30 hrounds

/-- Full bridge for `ntt_neg_backward`: on a canonical input the result is
canonical and computes `D^-1` times the exact composite of the `d` backward
rounds. -/
theorem ntt_neg_backward_bridge {d q W : Nat} (hq : 0 < q) (hq30 : q < 2 ^ 30)
    {v : Nat → Nat} (hv : ∀ i, i < 2 ^ d → v i < q) :
    StateOK q (2 ^ d) q (ntt_neg_backward (2 ^ d) q W v)
      (fun i => ((mod_inverse (2 ^ d) q : Nat) : ZMod q) *
        forN d (ntt_math_backward_round q W d) (fun i => ((v i : Nat) : ZMod q)) i) := by
  have hrel0 : StateOK q (2 ^ d) (2 * q) v (fun i => ((v i : Nat) : ZMod q)) := by
    intro i hi
    exact ⟨by have := hv i hi; omega, rfl⟩
  have hrounds := ntt_backward_rounds_bridge (W := W) hq hq30 hrel0 d (le_refl d)
  have hraw : ntt_neg_backward (2 ^ d) q W v =
      ntt_backward_final (2 ^ d) q
        (forN (Nat.log 2 (2 ^ d))
          (ntt_backward_round (2 ^ d) q
            (get_powers_bit_reversed (2 ^ d) q (mod_inverse W q % q))) v) := rfl
  have hlog : Nat.log 2 (2 ^ d) = d := Nat.log_pow (by norm_num) d
  rw [hraw, hlog]
  exact ntt_backward_final_bridge hq hq30 hrounds
theorem block_div_mod {L : Nat} (b o : Nat) (hL : 0 < L) (ho : o < L) :
    (b * L + o) / L = b ∧ (b * L + o) % L = o := by
  constructor
  · rw [Nat.add_comm, Nat.add_mul_div_right _ _ hL, Nat.div_eq_of_lt ho]
    omega
  · rw [Nat.add_comm, Nat.add_mul_mod_self_right, Nat.mod_eq_of_lt ho]

theorem block_bound {d L i : Nat} (hL : 0 < L) (hdvd : L ∣ 2 ^ d) (hi : i < 2 ^ d) :
    (i / L + 1) * L ≤ 2 ^ d := by
  rcases hdvd with ⟨c, hc⟩
  have hb : i / L < c := by
    rw [Nat.div_lt_iff_lt_mul hL]
    calc i < 2 ^ d := hi
      _ = c * L := by rw [hc]; ring
  calc (i / L + 1) * L ≤ c * L := Nat.mul_le_mul_right L (by omega)
    _ = 2 ^ d := by rw [hc]; ring

theorem two_pow_succ_dvd {d r : Nat} (hr : r < d) : 2 * 2 ^ r ∣ 2 ^ d := by
  have h : (2 : Nat) * 2 ^ r = 2 ^ (r + 1) := by rw [Nat.pow_succ]; ring
  rw [h]
  exact Nat.pow_dvd_pow 2 (by omega)

/-- The backward round only reads its input inside the block of the queried
index, so it respects agreement below `2^d`. -/
theorem ntt_math_backward_round_congr {q W d r : Nat} {f g : Nat → ZMod q}
    (hfg : ∀ j, j < 2 ^ d → f j = g j) (hr : r < d) :
    ∀ i, i < 2 ^ d → ntt_math_backward_round q W d r f i = ntt_math_backward_round q W d r g i := by
  intro i hi
  unfold ntt_math_backward_round
  simp only []
  set half := 2 ^ r with hhalfdef
  have hhalf : 0 < half := Nat.pos_pow_of_pos _ (by norm_num)
  have hdm := Nat.div_add_mod i (2 * half)
  have hw : (i / (2 * half) + 1) * (2 * half) = 2 * half * (i / (2 * half)) + 2 * half := by
    ring
  have hbound := block_bound (L := 2 * half) (by omega) (two_pow_succ_dvd hr) hi
  by_cases hcase : i % (2 * half) < half
  · rw [if_pos hcase, if_pos hcase]
    have hplus : i + half < 2 ^ d := by omega
    rw [hfg i hi, hfg (i + half) hplus]
  · rw [if_neg hcase, if_neg hcase]
    rw [hfg i hi, hfg (i - half) (by omega)]

/-- The backward round commutes with scalar multiplication of the state. -/
theorem ntt_math_backward_round_smul {q W d r : Nat} (c : ZMod q) (f : Nat → ZMod q) :
    ∀ i, ntt_math_backward_round q W d r (fun j => c * f j) i =
      c * ntt_math_backward_round q W d r f i := by
  intro i
  unfold ntt_math_backward_round
  simp only []
  split
  · ring
  · ring

/-- A backward round exactly undoes the matching forward round, up to the
factor `2`. -/
theorem ntt_math_round_inverse {q W d r : Nat} (hr : r < d)
    (hWinv : ((mod_inverse W q : Nat) : ZMod q) * (W : ZMod q) = 1) (f : Nat → ZMod q) :
    ∀ i, i < 2 ^ d →
      ntt_math_backward_round q W d r (ntt_math_forward_round q W d (d - 1 - r) f) i =
        2 * f i := by
  intro i hi
  have hhalfeq : 2 ^ (d - 1 - (d - 1 - r)) = 2 ^ r := by congr 1; omega
  set half := 2 ^ r with hhalfdef
  have hhalf : 0 < half := Nat.pos_pow_of_pos _ (by norm_num)
  have hfwd : ∀ j, ntt_math_forward_round q W d (d - 1 - r) f j =
      if j % (2 * half) < half then
        f j + ntt_twiddle q W d (d - 1 - r) (j / (2 * half)) * f (j + half)
      else f (j - half) - ntt_twiddle q W d (d - 1 - r) (j / (2 * half)) * f j := by
    intro j
    unfold ntt_math_forward_round
    simp only []
    rw [hhalfeq]
  have hbwd : ntt_math_backward_round q W d r (ntt_math_forward_round q W d (d - 1 - r) f) i =
      if i % (2 * half) < half then
        ntt_math_forward_round q W d (d - 1 - r) f i +
          ntt_math_forward_round q W d (d - 1 - r) f (i + half)
      else
        ntt_twiddle_inv q W d r (i / (2 * half)) *
          (ntt_math_forward_round q W d (d - 1 - r) f (i - half) -
            ntt_math_forward_round q W d (d - 1 - r) f i) := rfl
  set b := i / (2 * half) with hbdef
  have hdm := Nat.div_add_mod i (2 * half)
  set o := i % (2 * half) with hodef
  have homod : o < 2 * half := Nat.mod_lt _ (by omega)
  have hio : i = b * (2 * half) + o := by
    rw [hbdef, hodef]
    calc i = 2 * half * (i / (2 * half)) + i % (2 * half) := (Nat.div_add_mod i (2 * half)).symm
      _ = i / (2 * half) * (2 * half) + i % (2 * half) := by ring
  have htwinv : ntt_twiddle_inv q W d r b * ntt_twiddle q W d (d - 1 - r) b = 1 := by
    unfold ntt_twiddle_inv ntt_twiddle
    rw [← mul_pow, hWinv, one_pow]
  rw [hbwd]
  by_cases hcase : o < half
  · rw [if_pos hcase]
    have hsame : (i + half) / (2 * half) = b ∧ (i + half) % (2 * half) = o + half := by
      have heq : i + half = b * (2 * half) + (o + half) := by omega
      rw [heq]
      exact block_div_mod b (o + half) (by omega) (by omega)
    have hfi := hfwd i
    have hfih := hfwd (i + half)
    rw [← hodef, ← hbdef] at hfi
    rw [hsame.1, hsame.2] at hfih
    rw [hfi, hfih, if_pos hcase, if_neg (by omega)]
    have hih : i + half - half = i := by omega
    rw [hih]
    ring
  · rw [if_neg hcase]
    have hsame : (i - half) / (2 * half) = b ∧ (i - half) % (2 * half) = o - half := by
      have heq : i - half = b * (2 * half) + (o - half) := by omega
      rw [heq]
      exact block_div_mod b (o - half) (by omega) (by omega)
    have hfi := hfwd i
    have hfih := hfwd (i - half)
    rw [← hodef, ← hbdef] at hfi
    rw [hsame.1, hsame.2] at hfih
    rw [hfi, hfih, if_pos (by omega), if_neg (by omega)]
    have hih : i - half + half = i := by omega
    rw [hih]
    have hexpand : ntt_twiddle_inv q W d r b *
        (f (i - half) + ntt_twiddle q W d (d - 1 - r) b * f i -
          (f (i - half) - ntt_twiddle q W d (d - 1 - r) b * f i)) =
        (ntt_twiddle_inv q W d r b * ntt_twiddle q W d (d - 1 - r) b) * (2 * f i) := by
      ring
    rw [hexpand, htwinv]
    ring
theorem ntt_math_backward_rounds_congr {q W d : Nat} {f g : Nat → ZMod q}
    (hfg : ∀ j, j < 2 ^ d → f j = g j) :
    ∀ n, n ≤ d → ∀ i, i < 2 ^ d →
      forN n (ntt_math_backward_round q W d) f i = forN n (ntt_math_backward_round q W d) g i := by
  intro n
  induction n with
  | zero =>
    intro _ i hi
    exact hfg i hi
  | succ n ih =>
    intro hn i hi
    simp only [forN]
    exact ntt_math_backward_round_congr (fun j hj => ih (by omega) j hj) (by omega) i hi

/-- The telescoping inverse: `k` backward rounds undo the last `k` forward
rounds up to the factor `2^k`. -/
theorem ntt_math_telescope {q W d : Nat}
    (hWinv : ((mod_inverse W q : Nat) : ZMod q) * (W : ZMod q) = 1) (f : Nat → ZMod q) :
    ∀ k, k ≤ d → ∀ i, i < 2 ^ d →
      forN k (ntt_math_backward_round q W d)
          (forN d (ntt_math_forward_round q W d) f) i =
        (2 : ZMod q) ^ k * forN (d - k) (ntt_math_forward_round q W d) f i := by
  intro k
  induction k with
  | zero =>
    intro _ i hi
    simp [forN]
  | succ k ih =>
    intro hk i hi
    simp only [forN]
    have hcongr := ntt_math_backward_round_congr (q := q) (W := W)
      (f := forN k (ntt_math_backward_round q W d) (forN d (ntt_math_forward_round q W d) f))
      (g := fun j => (2 : ZMod q) ^ k * forN (d - k) (ntt_math_forward_round q W d) f j)
      (fun j hj => ih (by omega) j hj) (by omega : k < d) i hi
    rw [hcongr, ntt_math_backward_round_smul]
    have hdk : d - k = (d - k - 1) + 1 := by omega
    have hstep : forN (d - k) (ntt_math_forward_round q W d) f =
        ntt_math_forward_round q W d (d - k - 1)
          (forN (d - k - 1) (ntt_math_forward_round q W d) f) := by
      conv_lhs => rw [hdk]
      rfl
    have hidx : d - 1 - k = d - k - 1 := by omega
    have hinv := ntt_math_round_inverse (q := q) (W := W) (r := k) (by omega) hWinv
      (forN (d - k - 1) (ntt_math_forward_round q W d) f) i hi
    rw [hidx] at hinv
    rw [hstep, hinv]
    have hsub : d - (k + 1) = d - k - 1 := by omega
    rw [hsub]
    ring
theorem nat_cast_inj_of_lt {q a b : Nat} (ha : a < q) (hb : b < q)
    (h : ((a : Nat) : ZMod q) = ((b : Nat) : ZMod q)) : a = b := by
  have hmod := (ZMod.natCast_eq_natCast_iff a b q).mp h
  unfold Nat.ModEq at hmod
  rw [Nat.mod_eq_of_lt ha, Nat.mod_eq_of_lt hb] at hmod
  exact hmod

/-- Core round-trip theorem: the backward NTT inverts the forward NTT on
canonical inputs, given that `W` and `D = 2^d` are invertible mod `q`. -/
theorem ntt_roundtrip_core {d q W : Nat} (hq : 0 < q) (hq30 : q < 2 ^ 30)
    (hWinv : ((mod_inverse W q : Nat) : ZMod q) * (W : ZMod q) = 1)
    (hDinv : ((mod_inverse (2 ^ d) q : Nat) : ZMod q) * (((2 ^ d : Nat) : Nat) : ZMod q) = 1)
    {v : Nat → Nat} (hv : ∀ i, i < 2 ^ d → v i < q) :
    ∀ i, i < 2 ^ d → ntt_neg_backward (2 ^ d) q W (ntt_neg_forward (2 ^ d) q W v) i = v i := by
  intro i hi
  have hfwd := ntt_neg_forward_bridge (W := W) hq hq30 hv
  have hv2 : ∀ j, j < 2 ^ d → ntt_neg_forward (2 ^ d) q W v j < q := fun j hj => (hfwd j hj).1
  have hbwd := ntt_neg_backward_bridge (W := W) hq hq30 hv2
  obtain ⟨hlt, hcast⟩ := hbwd i hi
  have hcongr := ntt_math_backward_rounds_congr (q := q) (W := W)
    (f := fun j => ((ntt_neg_forward (2 ^ d) q W v j : Nat) : ZMod q))
    (g := forN d (ntt_math_forward_round q W d) (fun j => ((v j : Nat) : ZMod q)))
    (fun j hj => (hfwd j hj).2) d (le_refl d) i hi
  have htel := ntt_math_telescope (q := q) (W := W) hWinv
    (fun j => ((v j : Nat) : ZMod q)) d (le_refl d) i hi
  have hzero : d - d = 0 := by omega
  rw [hzero] at htel
  have hfin : ((ntt_neg_backward (2 ^ d) q W (ntt_neg_forward (2 ^ d) q W v) i : Nat) : ZMod q) =
      ((v i : Nat) : ZMod q) := by
    rw [hcast]
    simp only []
    rw [hcongr, htel]
    simp only [forN]
    have hpow : (((2 ^ d : Nat) : Nat) : ZMod q) = (2 : ZMod q) ^ d := by push_cast; rfl
    calc ((mod_inverse (2 ^ d) q : Nat) : ZMod q) *
          ((2 : ZMod q) ^ d * ((v i : Nat) : ZMod q))
        = (((mod_inverse (2 ^ d) q : Nat) : ZMod q) * (2 : ZMod q) ^ d) *
            ((v i : Nat) : ZMod q) := by ring
      _ = ((v i : Nat) : ZMod q) := by
          rw [← hpow, hDinv, one_mul]
  exact nat_cast_inj_of_lt hlt (hv i hi) hfin
/-- Partial DFT sum over a stride-`L` block: `Σ_{s<cnt} a (o + s·L) · c^s`. -/
def blockSum (q : Nat) (a : Nat → ZMod q) (cnt L o : Nat) (c : ZMod q) : ZMod q :=
  ∑ s ∈ Finset.range cnt, a (o + s * L) * c ^ s

theorem sum_range_double {M : Type} [AddCommMonoid M] (g : Nat → M) (n : Nat) :
    ∑ s ∈ Finset.range (2 * n), g s =
      (∑ s ∈ Finset.range n, g (2 * s)) + ∑ s ∈ Finset.range n, g (2 * s + 1) := by
  induction n with
  | zero => simp
  | succ m ih =>
    have h2 : 2 * (m + 1) = 2 * m + 1 + 1 := by ring
    rw [h2, Finset.sum_range_succ, Finset.sum_range_succ, Finset.sum_range_succ,
      Finset.sum_range_succ, ih]
    have hg1 : 2 * m + 1 = 2 * m + 1 := rfl
    abel

theorem blockSum_split (q : Nat) (a : Nat → ZMod q) (cnt L o : Nat) (c : ZMod q) :
    blockSum q a (2 * cnt) L o c =
      blockSum q a cnt (2 * L) o (c ^ 2) + c * blockSum q a cnt (2 * L) (o + L) (c ^ 2) := by
  unfold blockSum
  rw [sum_range_double (fun s => a (o + s * L) * c ^ s) cnt, Finset.mul_sum]
  congr 1
  · refine Finset.sum_congr rfl fun s _ => ?_
    have hidx : o + 2 * s * L = o + s * (2 * L) := by ring
    have hpow : c ^ (2 * s) = (c ^ 2) ^ s := by rw [← pow_mul]
    rw [hidx, hpow]
  · refine Finset.sum_congr rfl fun s _ => ?_
    have hidx : o + (2 * s + 1) * L = o + L + s * (2 * L) := by ring
    have hpow : c ^ (2 * s + 1) = c * (c ^ 2) ^ s := by
      rw [← pow_mul, pow_succ, mul_comm]
    rw [hidx, hpow]
    ring
/-- After `r` forward math rounds, entry `idx` holds the partial DFT of its
stride-`2^(d-r)` block at twiddle `W ^ reverse_bits (d+1) (2^r + block)`. -/
theorem ntt_math_forward_eval {q W d : Nat} (hW : (W : ZMod q) ^ 2 ^ d = -1)
    (a : Nat → ZMod q) :
    ∀ r, r ≤ d → ∀ idx, idx < 2 ^ d →
      forN r (ntt_math_forward_round q W d) a idx =
        blockSum q a (2 ^ r) (2 ^ (d - r)) (idx % 2 ^ (d - r))
          ((W : ZMod q) ^ reverse_bits (d + 1) (2 ^ r + idx / 2 ^ (d - r))) := by
  intro r
  induction r with
  | zero =>
    intro _ idx hidx
    simp [forN, blockSum, Nat.mod_eq_of_lt hidx]
  | succ r ih =>
    intro hr idx hidx
    have hrd : r < d := by omega
    have hrle : r ≤ d := by omega
    set half := 2 ^ (d - 1 - r) with hhalf
    have hhpos : 0 < half := Nat.pos_pow_of_pos _ (by omega)
    have hdr : d - r = (d - 1 - r) + 1 := by omega
    have hLr : 2 ^ (d - r) = 2 * half := by rw [hdr, pow_succ, mul_comm]
    have hdr1 : d - (r + 1) = d - 1 - r := by omega
    have hLr1 : 2 ^ (d - (r + 1)) = half := by rw [hdr1]
    set B := idx / (2 * half) with hB
    set o := idx % (2 * half) with ho
    have hdm : B * (2 * half) + o = idx := by
      rw [hB, ho, Nat.mul_comm]; exact Nat.div_add_mod idx (2 * half)
    have holt : o < 2 * half := Nat.mod_lt _ (by omega)
    have h2d : 2 ^ d = 2 ^ r * (2 * half) := by
      rw [← hLr, ← pow_add]; congr 1; omega
    have hBlt : B < 2 ^ r := by
      rw [hB]
      have : idx < 2 ^ r * (2 * half) := by rw [← h2d]; exact hidx
      exact Nat.div_lt_of_lt_mul (by rw [Nat.mul_comm] at this; exact this)
    have hBle : B * (2 * half) ≤ (2 ^ r - 1) * (2 * half) :=
      Nat.mul_le_mul_right _ (by omega)
    have hsub : (2 ^ r - 1) * (2 * half) = 2 ^ d - 2 * half := by
      rw [Nat.sub_mul, one_mul, ← h2d]
    have h2hle : 2 * half ≤ 2 ^ d := by
      rw [h2d]; exact Nat.le_mul_of_pos_left _ (Nat.pos_pow_of_pos _ (by omega))
    have hround : forN (r + 1) (ntt_math_forward_round q W d) a idx =
        (if idx % (2 * half) < half then
          forN r (ntt_math_forward_round q W d) a idx +
            ntt_twiddle q W d r (idx / (2 * half)) *
              forN r (ntt_math_forward_round q W d) a (idx + half)
        else
          forN r (ntt_math_forward_round q W d) a (idx - half) -
            ntt_twiddle q W d r (idx / (2 * half)) *
              forN r (ntt_math_forward_round q W d) a idx) := rfl
    have hrBlt : 2 ^ r + B < 2 ^ d := by
      have h1 : 2 ^ r + B < 2 ^ (r + 1) := by
        have := hBlt; rw [pow_succ]; omega
      have h2 : 2 ^ (r + 1) ≤ 2 ^ d := Nat.pow_le_pow_right (by omega) (by omega)
      omega
    have hc2 : ntt_twiddle q W d r B ^ 2 =
        (W : ZMod q) ^ reverse_bits (d + 1) (2 ^ r + B) := by
      show ((W : ZMod q) ^ reverse_bits d (2 ^ r + B)) ^ 2 = _
      rw [reverse_bits_shift hrBlt, ← pow_mul, Nat.mul_comm]
    by_cases hcase : o < half
    · -- upper output: x + w*y
      have hmodh : idx % half = o := by
        have : idx = o + 2 * B * half := by rw [← hdm]; ring
        rw [this, Nat.add_mul_mod_self_right]
        exact Nat.mod_eq_of_lt hcase
      have hdivh : idx / half = 2 * B := by
        have : idx = o + 2 * B * half := by rw [← hdm]; ring
        rw [this, Nat.add_mul_div_right _ _ hhpos, Nat.div_eq_of_lt hcase, Nat.zero_add]
      have hmod2 : (idx + half) % (2 * half) = o + half := by
        have : idx + half = (o + half) + B * (2 * half) := by rw [← hdm]; ring
        rw [this, Nat.add_mul_mod_self_right]
        exact Nat.mod_eq_of_lt (by omega)
      have hdiv2 : (idx + half) / (2 * half) = B := by
        have h : idx + half = (o + half) + B * (2 * half) := by rw [← hdm]; ring
        rw [h, Nat.add_mul_div_right _ _ (by omega), Nat.div_eq_of_lt (by omega), Nat.zero_add]
      have hlt2 : idx + half < 2 ^ d := by omega
      have hIH1 := ih hrle idx hidx
      have hIH2 := ih hrle (idx + half) hlt2
      rw [hLr, hmod2, hdiv2] at hIH2
      rw [hLr] at hIH1
      rw [hround, if_pos hcase, hIH1, hIH2, ← ho, ← hB]
      rw [hLr1, hmodh, hdivh]
      have htw : (W : ZMod q) ^ reverse_bits (d + 1) (2 * 2 ^ r + 2 * B) =
          ntt_twiddle q W d r B := by
        have h1 : 2 * 2 ^ r + 2 * B = 2 * (2 ^ r + B) := by ring
        rw [h1, reverse_bits_two_mul]; rfl
      rw [pow_succ, Nat.mul_comm (2 ^ r) 2, blockSum_split, htw, hc2]
    · -- lower output: x - w*y
      have hsplit : o = (o - half) + half := by omega
      have hkey : idx = (o - half) + (2 * B + 1) * half := by
        have h1 : (2 * B + 1) * half = B * (2 * half) + half := by ring
        rw [h1]; omega
      have hmodh : idx % half = o - half := by
        rw [hkey, Nat.add_mul_mod_self_right]
        exact Nat.mod_eq_of_lt (by omega)
      have hdivh : idx / half = 2 * B + 1 := by
        rw [hkey, Nat.add_mul_div_right _ _ hhpos, Nat.div_eq_of_lt (by omega), Nat.zero_add]
      have hmod2 : (idx - half) % (2 * half) = o - half := by
        have : idx - half = (o - half) + B * (2 * half) := by omega
        rw [this, Nat.add_mul_mod_self_right]
        exact Nat.mod_eq_of_lt (by omega)
      have hdiv2 : (idx - half) / (2 * half) = B := by
        have h : idx - half = (o - half) + B * (2 * half) := by omega
        rw [h, Nat.add_mul_div_right _ _ (by omega), Nat.div_eq_of_lt (by omega), Nat.zero_add]
      have hlt2 : idx - half < 2 ^ d := by omega
      have hIH1 := ih hrle (idx - half) hlt2
      have hIH2 := ih hrle idx hidx
      rw [hLr, hmod2, hdiv2] at hIH1
      rw [hLr] at hIH2
      rw [hround, if_neg hcase, hIH1, hIH2, ← ho, ← hB]
      rw [hLr1, hmodh, hdivh]
      have htw : (W : ZMod q) ^ reverse_bits (d + 1) (2 * 2 ^ r + (2 * B + 1)) =
          -ntt_twiddle q W d r B := by
        have h1 : 2 * 2 ^ r + (2 * B + 1) = 2 * (2 ^ r + B) + 1 := by ring
        rw [h1, reverse_bits_two_mul_add_one, pow_add, hW, neg_one_mul]
        rfl
      have hc2n : (-(ntt_twiddle q W d r B)) ^ 2 =
          (W : ZMod q) ^ reverse_bits (d + 1) (2 ^ r + B) := by
        rw [neg_sq]; exact hc2
      rw [pow_succ, Nat.mul_comm (2 ^ r) 2, blockSum_split, htw, hc2n]
      have hob : blockSum q a (2 ^ r) (2 * half) (o - half + half)
            ((W : ZMod q) ^ reverse_bits (d + 1) (2 ^ r + B)) =
          blockSum q a (2 ^ r) (2 * half) o
            ((W : ZMod q) ^ reverse_bits (d + 1) (2 ^ r + B)) := by
        rw [← hsplit]
      rw [hob]
      ring
/-- The full forward math pipeline stores `Σ_j a_j · W^((2k+1)·j)` at index
`reverse_bits d k`. -/
theorem ntt_math_forward_dft {q W d : Nat} (hW : (W : ZMod q) ^ 2 ^ d = -1)
    (a : Nat → ZMod q) (k : Nat) (hk : k < 2 ^ d) :
    forN d (ntt_math_forward_round q W d) a (reverse_bits d k) =
      ∑ j ∈ Finset.range (2 ^ d), a j * (W : ZMod q) ^ ((2 * k + 1) * j) := by
  have hrevlt : reverse_bits d k < 2 ^ d := reverse_bits_lt d k
  have h := ntt_math_forward_eval hW a d (le_refl d) (reverse_bits d k) hrevlt
  have hdd : d - d = 0 := by omega
  rw [hdd] at h
  simp only [pow_zero, Nat.mod_one, Nat.div_one] at h
  have hexp : reverse_bits (d + 1) (2 ^ d + reverse_bits d k) = 2 * k + 1 := by
    rw [Nat.add_comm (2 ^ d) (reverse_bits d k), reverse_bits_add_pow hrevlt,
      reverse_bits_shift hrevlt,
      reverse_bits_involution hk]
  rw [hexp] at h
  rw [h]
  unfold blockSum
  refine Finset.sum_congr rfl fun j _ => ?_
  rw [Nat.zero_add, Nat.mul_one, ← pow_mul]
/-- From a prime modulus with `2D | q-1` and a primitive `2D`-th root `W`
(`D = 2^d`): `W^D = -1`, and both `W` and `D` are coprime to `q`. -/
theorem ntt_root_facts {q W d : Nat} (hp : Nat.Prime q)
    (hdvd : 2 * 2 ^ d ∣ q - 1) (horder : orderOf (W : ZMod q) = 2 * 2 ^ d) :
    (W : ZMod q) ^ 2 ^ d = -1 ∧ Nat.gcd W q = 1 ∧ Nat.gcd (2 ^ d) q = 1 := by
  haveI : Fact (Nat.Prime q) := ⟨hp⟩
  haveI : NeZero q := ⟨by have := hp.one_lt; omega⟩
  have hq1 : 1 < q := hp.one_lt
  have hpow : 0 < 2 ^ d := Nat.pos_pow_of_pos _ (by omega)
  have hq2 : q ≠ 2 := by
    intro h
    rw [h] at hdvd
    have hle := Nat.le_of_dvd (by norm_num) hdvd
    omega
  have hx1 : (W : ZMod q) ^ (2 * 2 ^ d) = 1 := by
    rw [← horder]; exact pow_orderOf_eq_one _
  have hunit : IsUnit (W : ZMod q) := by
    apply isUnit_of_mul_eq_one _ ((W : ZMod q) ^ (2 * 2 ^ d - 1))
    have hsucc : 2 * 2 ^ d - 1 + 1 = 2 * 2 ^ d := by omega
    calc (W : ZMod q) * (W : ZMod q) ^ (2 * 2 ^ d - 1)
        = (W : ZMod q) ^ (2 * 2 ^ d - 1 + 1) := (pow_succ' _ _).symm
      _ = 1 := by rw [hsucc, hx1]
  have hWgcd : Nat.gcd W q = 1 := (ZMod.isUnit_iff_coprime W q).mp hunit
  have h2gcd : Nat.gcd (2 ^ d) q = 1 := by
    have hq2dvd : ¬ q ∣ 2 ^ d := by
      intro hdv
      have hq2' := hp.dvd_of_dvd_pow hdv
      have := Nat.prime_two.eq_one_or_self_of_dvd q hq2'
      omega
    exact ((Nat.Prime.coprime_iff_not_dvd hp).mpr hq2dvd).symm
  have hW : (W : ZMod q) ^ 2 ^ d = -1 := by
    have hysq : (W : ZMod q) ^ 2 ^ d * (W : ZMod q) ^ 2 ^ d = 1 := by
      rw [← pow_add]
      have h2 : 2 ^ d + 2 ^ d = 2 * 2 ^ d := by ring
      rw [h2, hx1]
    rcases mul_self_eq_one_iff.mp hysq with h1 | h1
    · exfalso
      have hdvd2 : orderOf (W : ZMod q) ∣ 2 ^ d := orderOf_dvd_of_pow_eq_one h1
      rw [horder] at hdvd2
      have hle := Nat.le_of_dvd hpow hdvd2
      omega
    · exact h1
  exact ⟨hW, hWgcd, h2gcd⟩

/-- C1: NTT round-trip. For every power-of-two `D = 2^d ≥ 4`, NTT-friendly
prime `q < 2^30` (`2D ∣ q - 1`) with primitive `2D`-th root of unity `W`,
and every array of `D` canonical residues in `[0, q)`, applying
`ntt_neg_forward` and then `ntt_neg_backward` returns exactly the input
(the inverse pass includes the multiplication by `D^-1 mod q`). -/
theorem claim_C1_ntt_roundtrip {d q W : Nat} (hd : 2 ≤ d) (hp : Nat.Prime q)
    (hq30 : q < 2 ^ 30) (hdvd : 2 * 2 ^ d ∣ q - 1)
    (horder : orderOf (W : ZMod q) = 2 * 2 ^ d)
    {a : Nat → Nat} (ha : ∀ i, i < 2 ^ d → a i < q) :
    ∀ i, i < 2 ^ d →
      ntt_neg_backward (2 ^ d) q W (ntt_neg_forward (2 ^ d) q W a) i = a i := by
  obtain ⟨hW, hWgcd, hDgcd⟩ := ntt_root_facts hp hdvd horder
  have hq : 0 < q := hp.pos
  exact ntt_roundtrip_core hq hq30 (mod_inverse_spec hq hWgcd)
    (mod_inverse_spec hq hDgcd) ha

theorem claim_C1_ntt_roundtrip_witness :
    Nat.Prime 17 ∧
    ntt_neg_backward (2 ^ 2) 17 2 (ntt_neg_forward (2 ^ 2) 17 2 (fun j => j + 1)) 2 = 3 := by
  refine ⟨by norm_num, ?_⟩
  have h := claim_C1_ntt_roundtrip (d := 2) (q := 17) (W := 2) (a := fun j => j + 1)
    (by norm_num) (by norm_num) (by norm_num) (by decide)
    (by rw [orderOf_eq_iff (by norm_num)]; decide) (by decide)
  exact h 2 (by norm_num)
/-- C3: forward NTT contract. For every power-of-two `D = 2^d ≥ 4`,
NTT-friendly prime `q < 2^30`, primitive `2D`-th root of unity `W`, and
canonical input array `a`, after `ntt_neg_forward` the entry stored at index
`reverse_bits d k` is the canonical representative of
`Σ_j a_j · W^((2k+1)·j) mod q`, for every `k < D`; this instantiates to the
`D = 4`, `q = 268369921`, input `[1,2,3,4]` case of the spec. -/
theorem claim_C3_forward_contract {d q W : Nat} (hd : 2 ≤ d) (hp : Nat.Prime q)
    (hq30 : q < 2 ^ 30) (hdvd : 2 * 2 ^ d ∣ q - 1)
    (horder : orderOf (W : ZMod q) = 2 * 2 ^ d)
    {a : Nat → Nat} (ha : ∀ i, i < 2 ^ d → a i < q) (k : Nat) (hk : k < 2 ^ d) :
    ntt_neg_forward (2 ^ d) q W a (reverse_bits d k) < q ∧
    ((ntt_neg_forward (2 ^ d) q W a (reverse_bits d k) : Nat) : ZMod q) =
      ∑ j ∈ Finset.range (2 ^ d),
        ((a j : Nat) : ZMod q) * (W : ZMod q) ^ ((2 * k + 1) * j) := by
  obtain ⟨hW, -, -⟩ := ntt_root_facts hp hdvd horder
  have hq : 0 < q := hp.pos
  have hbr := ntt_neg_forward_bridge (W := W) hq hq30 ha
  obtain ⟨hlt, hcast⟩ := hbr (reverse_bits d k) (reverse_bits_lt d k)
  exact ⟨hlt, by rw [hcast, ntt_math_forward_dft hW _ k hk]⟩

/-- Fuel-indexed divide-and-conquer trial division: `true` when no integer
in `[lo, lo+len)` (other than `0` and `1`) divides `n`. The balanced split
keeps kernel evaluation depth logarithmic. -/
def noDivRange (n : Nat) : Nat → Nat → Nat → Bool
  | 0, _, _ => false
  | _ + 1, _, 0 => true
  | _ + 1, lo, 1 => if lo ≤ 1 then true else n % lo != 0
  | fuel + 1, lo, len + 2 =>
      noDivRange n fuel lo ((len + 2) / 2) &&
      noDivRange n fuel (lo + (len + 2) / 2) (len + 2 - (len + 2) / 2)

theorem noDivRange_correct (n : Nat) : ∀ fuel lo len,
    noDivRange n fuel lo len = true →
    ∀ m, 2 ≤ m → lo ≤ m → m < lo + len → ¬ m ∣ n := by
  intro fuel
  induction fuel with
  | zero => intro lo len h; rw [noDivRange] at h; cases h
  | succ fuel ih =>
    intro lo len h m h2 hlo hhi
    match len, hhi with
    | 0, hhi => omega
    | 1, hhi =>
      rw [noDivRange] at h
      have hm : m = lo := by omega
      subst hm
      rw [if_neg (by omega)] at h
      simp only [bne_iff_ne, ne_eq, decide_eq_true_eq] at h
      intro hdvd
      exact h (Nat.dvd_iff_mod_eq_zero.mp hdvd)
    | len + 2, hhi =>
      rw [noDivRange, Bool.and_eq_true] at h
      by_cases hmid : m < lo + (len + 2) / 2
      · exact ih lo ((len + 2) / 2) h.1 m h2 hlo hmid
      · exact ih (lo + (len + 2) / 2) (len + 2 - (len + 2) / 2) h.2 m h2
          (by omega) (by omega)

set_option maxRecDepth 10000 in
/-- The NTT modulus of the spec's `D = 4` instance is prime. -/
theorem prime_268369921 : Nat.Prime 268369921 := by
  have hrun : noDivRange 268369921 20 2 16382 = true := by decide
  have hnd := noDivRange_correct 268369921 20 2 16382 hrun
  have hs : Nat.sqrt 268369921 ≤ 16383 := by
    have h1 : 268369921 < 16384 ^ 2 := by norm_num
    have h2 := Nat.sqrt_lt'.mpr h1
    omega
  exact Nat.prime_def_le_sqrt.mpr ⟨by norm_num,
    fun m h2 hle => hnd m h2 (by omega) (by omega)⟩

theorem claim_C3_forward_contract_witness :
    Nat.Prime 268369921 ∧
    (ntt_neg_forward (2 ^ 2) 268369921 82776351 (fun j => j + 1) (reverse_bits 2 1) <
      268369921 ∧
    ((ntt_neg_forward (2 ^ 2) 268369921 82776351 (fun j => j + 1) (reverse_bits 2 1) :
        Nat) : ZMod 268369921) =
      ∑ j ∈ Finset.range (2 ^ 2),
        (((fun j => j + 1) j : Nat) : ZMod 268369921) *
          ((82776351 : Nat) : ZMod 268369921) ^ ((2 * 1 + 1) * j)) := by
  constructor
  · exact prime_268369921
  · exact claim_C3_forward_contract (d := 2) (q := 268369921) (W := 82776351)
      (a := fun j => j + 1) (by norm_num) prime_268369921 (by norm_num) (by norm_num)
      (by rw [orderOf_eq_iff (by norm_num)]; decide)
      (by intro i _; show i + 1 < 268369921; omega) 1 (by norm_num)

/-- C9: canonical output range. For every power-of-two `D = 2^d ≥ 4`,
NTT-friendly prime `q < 2^30` with primitive `2D`-th root `W`, and every
array of `D` canonical residues, every entry after `ntt_neg_forward` and
every entry after `ntt_neg_backward` lies in `[0, q)`: the final reduction
pass of each transform restores the canonical coefficient invariant. -/
theorem claim_C9_canonical_range {d q W : Nat} (hd : 2 ≤ d) (hp : Nat.Prime q)
    (hq30 : q < 2 ^ 30) (hdvd : 2 * 2 ^ d ∣ q - 1)
    (horder : orderOf (W : ZMod q) = 2 * 2 ^ d)
    {a : Nat → Nat} (ha : ∀ i, i < 2 ^ d → a i < q) :
    ∀ i, i < 2 ^ d →
      ntt_neg_forward (2 ^ d) q W a i < q ∧ ntt_neg_backward (2 ^ d) q W a i < q := by
  have hq : 0 < q := hp.pos
  intro i hi
  exact ⟨(ntt_neg_forward_bridge (W := W) hq hq30 ha i hi).1,
    (ntt_neg_backward_bridge (W := W) hq hq30 ha i hi).1⟩

theorem claim_C9_canonical_range_witness :
    Nat.Prime 17 ∧
    (ntt_neg_forward (2 ^ 2) 17 2 (fun j => j + 1) 3 < 17 ∧
      ntt_neg_backward (2 ^ 2) 17 2 (fun j => j + 1) 3 < 17) := by
  refine ⟨by norm_num, ?_⟩
  have h := claim_C9_canonical_range (d := 2) (q := 17) (W := 2) (a := fun j => j + 1)
    (by norm_num) (by norm_num) (by norm_num) (by decide)
    (by rw [orderOf_eq_iff (by norm_num)]; decide) (by decide)
  exact h 3 (by norm_num)
/-- C8: Shoup modular multiplication. For every modulus `q < 2^30`, every
multiplier `b < q` with precomputed ratio `⌊b·2^32/q⌋` (`get_ratio32`), and
every input `a < 4q`, the 64-bit-lane value computed by `_mm256_mod_mul32`
(`a·b - q·⌊a·ratio/2^32⌋` evaluated with 32-bit wrapping multiplies) is
congruent to `a·b` mod `q` and lies in `[0, 2q)`. -/
theorem claim_C8_shoup_mod_mul {q b a : Nat} (hq : 0 < q) (hq30 : q < 2 ^ 30)
    (hb : b < q) (ha : a < 4 * q) :
    ((mm256ModMul32Lane a b (get_ratio32 q b) q : Nat) : ZMod q) =
      (a : ZMod q) * (b : ZMod q) ∧
    mm256ModMul32Lane a b (get_ratio32 q b) q < 2 * q := by
  obtain ⟨hval, hle, hlt⟩ := mm256ModMul32Lane_spec hq hq30 hb rfl ha
  constructor
  · rw [hval, shoup_product_cast hle]
    ring
  · rw [hval]; exact hlt

theorem claim_C8_shoup_mod_mul_witness :
    ((mm256ModMul32Lane 35 7 (get_ratio32 17 7) 17 : Nat) : ZMod 17) =
      ((35 : Nat) : ZMod 17) * ((7 : Nat) : ZMod 17) ∧
    mm256ModMul32Lane 35 7 (get_ratio32 17 7) 17 < 2 * 17 :=
  claim_C8_shoup_mod_mul (by norm_num) (by norm_num) (by norm_num) (by norm_num)
/-- Pointwise-update of a `ZMod`-valued state, as array writes. -/
def updZ (q : Nat) (s : Nat → ZMod q) (i : Nat) (x : ZMod q) : Nat → ZMod q :=
  fun j => if j = i then x else s j

/-- Modelled from the spec: coefficient `k` of the plain product of two
polynomials over `Z_N` (`PolynomialZ_N` multiplication;
`src/fhe-psi/src/math/polynomial.rs` is absent from the sources, and the
spec describes the reference product as the plain polynomial product
subsequently reduced by `X^D = -1`): the Cauchy convolution
`Σ_{i≤k} a_i · b_{k-i}`. `Z_N` itself (`int_mod.rs`, also absent) is
modelled as `ZMod N`. -/
def polyMulCoeff (q : Nat) (a b : Nat → ZMod q) (k : Nat) : ZMod q :=
  ∑ i ∈ Finset.range (k + 1), a i * b (k - i)

/-- `From<PolynomialZ_N> for Z_N_CycloRaw` (`z_n_cyclo.rs` lines 47-59):
iterate over the `len` coefficients of the polynomial; coefficient `i` is
added to slot `i % D` when `i / D` is even and subtracted when odd. -/
def fromPoly (q D len : Nat) (p : Nat → ZMod q) : Nat → ZMod q :=
  forN len (fun i c =>
    if i / D % 2 = 0 then updZ q c (i % D) (c (i % D) + p i)
    else updZ q c (i % D) (c (i % D) - p i)) (fun _ => 0)

/-- Truncate a coefficient array to its first `D` entries (the `[Z_N<N>; D]`
array of `Z_N_CycloRaw` holds exactly `D` coefficients). -/
def padTo (q D : Nat) (a : Nat → ZMod q) : Nat → ZMod q :=
  fun i => if i < D then a i else 0

/-- `impl Mul for &Z_N_CycloRaw` (`z_n_cyclo.rs` lines 114-122): convert both
length-`D` coefficient arrays to polynomials, take the plain polynomial
product (degree `≤ 2D-2`, so `2D-1` coefficients), and reduce it back with
the `From<PolynomialZ_N>` fold. -/
def cycloMul (q D : Nat) (a b : Nat → ZMod q) : Nat → ZMod q :=
  fromPoly q D (2 * D - 1) (polyMulCoeff q (padTo q D a) (padTo q D b))

/-- `Z_N_CycloRaw::one` (`z_n_cyclo.rs` lines 139-146): the array
`[1_u64.into(); D]`, i.e. every one of the `D` coefficients is `1`. -/
def z_n_cyclo_one (q D : Nat) : Nat → ZMod q := fun i => if i < D then 1 else 0

theorem updZ_same {q : Nat} (s : Nat → ZMod q) (i : Nat) (x : ZMod q) :
    updZ q s i x i = x := by simp [updZ]

theorem updZ_other {q : Nat} (s : Nat → ZMod q) {i j : Nat} (x : ZMod q) (h : j ≠ i) :
    updZ q s i x j = s j := by simp [updZ, h]

/-- Unrolled characterization of the `From<PolynomialZ_N>` fold: slot `m`
accumulates `±p i` over all processed `i` with `i % D = m`. -/
theorem fromPoly_get_sum {q D : Nat} (p : Nat → ZMod q) (m : Nat) :
    ∀ len, fromPoly q D len p m =
      ∑ i ∈ Finset.range len,
        (if i % D = m then (if i / D % 2 = 0 then p i else -p i) else 0) := by
  intro len
  induction len with
  | zero => simp [fromPoly, forN]
  | succ n ih =>
    have hstep : fromPoly q D (n + 1) p =
        (fun c => if n / D % 2 = 0 then updZ q c (n % D) (c (n % D) + p n)
          else updZ q c (n % D) (c (n % D) - p n)) (fromPoly q D n p) := rfl
    rw [hstep, Finset.sum_range_succ, ← ih]
    by_cases hm : n % D = m
    · rw [if_pos hm]
      by_cases hpar : n / D % 2 = 0
      · simp only [if_pos hpar, ← hm, updZ_same]
      · simp only [if_neg hpar, ← hm, updZ_same]
        ring
    · rw [if_neg hm, add_zero]
      have hne : m ≠ n % D := fun h => hm h.symm
      by_cases hpar : n / D % 2 = 0
      · simp only [if_pos hpar, updZ_other _ _ hne]
      · simp only [if_neg hpar, updZ_other _ _ hne]
/-- On a product of two degree-`< D` polynomials (`2D-1` coefficients), the
reduction fold computes exactly `p_m - p_{m+D}` (the second term present only
when `m + D < 2D - 1`). -/
theorem fromPoly_get {q D : Nat} (hD : 0 < D) (p : Nat → ZMod q) (m : Nat) (hm : m < D) :
    fromPoly q D (2 * D - 1) p m =
      p m - (if m + D < 2 * D - 1 then p (m + D) else 0) := by
  rw [fromPoly_get_sum]
  have hterm : ∀ i, i ∈ Finset.range (2 * D - 1) → i ≠ m → i ≠ m + D →
      (if i % D = m then (if i / D % 2 = 0 then p i else -p i) else 0) = 0 := by
    intro i hi hne1 hne2
    rw [Finset.mem_range] at hi
    by_cases hmod : i % D = m
    · exfalso
      have hdm := Nat.div_add_mod i D
      have hu : i / D < 2 := by
        rw [Nat.div_lt_iff_lt_mul hD]
        omega
      have hu01 : i / D = 0 ∨ i / D = 1 :=
        Nat.le_one_iff_eq_zero_or_eq_one.mp (Nat.lt_succ_iff.mp hu)
      rcases hu01 with hu0 | hu1
      · rw [hu0, hmod] at hdm
        omega
      · rw [hu1, hmod] at hdm
        omega
    · exact if_neg hmod
  have hmmod : m % D = m := Nat.mod_eq_of_lt hm
  have hmdiv : m / D = 0 := Nat.div_eq_of_lt hm
  by_cases hcase : m + D < 2 * D - 1
  · have hne : m ≠ m + D := by omega
    have hsub : ({m, m + D} : Finset Nat) ⊆ Finset.range (2 * D - 1) := by
      intro x hx
      rw [Finset.mem_insert, Finset.mem_singleton] at hx
      rw [Finset.mem_range]
      omega
    rw [← Finset.sum_subset hsub]
    · rw [Finset.sum_pair hne]
      have hm2mod : (m + D) % D = m := by
        rw [Nat.add_mod_right]
        exact hmmod
      have hm2div : (m + D) / D = 1 := by
        rw [Nat.add_div_right _ hD, hmdiv]
      rw [if_pos hmmod, if_pos hm2mod, hmdiv, hm2div]
      norm_num
      rw [if_pos hcase]
      ring
    · intro x hx hnotin
      rw [Finset.mem_insert, Finset.mem_singleton] at hnotin
      push_neg at hnotin
      exact hterm x hx hnotin.1 hnotin.2
  · have hmem : m ∈ Finset.range (2 * D - 1) := by
      rw [Finset.mem_range]; omega
    rw [Finset.sum_eq_single_of_mem m hmem]
    · rw [if_pos hmmod, hmdiv]
      norm_num
      rw [if_neg hcase]
      ring
    · intro i hi hne
      refine hterm i hi hne ?_
      intro h
      rw [Finset.mem_range] at hi
      omega
theorem sum_range_split {M : Type} [AddCommMonoid M] (f : Nat → M) (m n : Nat) :
    ∑ i ∈ Finset.range (m + n), f i =
      (∑ i ∈ Finset.range m, f i) + ∑ i ∈ Finset.range n, f (m + i) := by
  induction n with
  | zero => simp
  | succ k ih =>
    rw [Nat.add_succ, Finset.sum_range_succ, Finset.sum_range_succ, ih, add_assoc]

/-- Evaluating the plain (unreduced) product polynomial at any point gives
the product of the evaluations. -/
theorem polyMul_eval {q D : Nat} (hD : 0 < D) (a b : Nat → ZMod q) (x : ZMod q) :
    ∑ k ∈ Finset.range (2 * D - 1),
      polyMulCoeff q (padTo q D a) (padTo q D b) k * x ^ k =
    (∑ i ∈ Finset.range D, a i * x ^ i) * (∑ j ∈ Finset.range D, b j * x ^ j) := by
  have h1 : ∀ k, polyMulCoeff q (padTo q D a) (padTo q D b) k * x ^ k =
      ∑ i ∈ Finset.range (k + 1), padTo q D a i * padTo q D b (k - i) * x ^ (i + (k - i)) := by
    intro k
    rw [polyMulCoeff, Finset.sum_mul]
    refine Finset.sum_congr rfl fun i hi => ?_
    rw [Finset.mem_range] at hi
    have : i + (k - i) = k := by omega
    rw [this]
  calc ∑ k ∈ Finset.range (2 * D - 1),
        polyMulCoeff q (padTo q D a) (padTo q D b) k * x ^ k
      = ∑ k ∈ Finset.range (2 * D - 1), ∑ i ∈ Finset.range (k + 1),
          padTo q D a i * padTo q D b (k - i) * x ^ (i + (k - i)) :=
        Finset.sum_congr rfl fun k _ => h1 k
    _ = ∑ i ∈ Finset.range (2 * D - 1), ∑ j ∈ Finset.range (2 * D - 1 - i),
          padTo q D a i * padTo q D b j * x ^ (i + j) :=
        Finset.sum_range_diag_flip (2 * D - 1) (fun i j => padTo q D a i * padTo q D b j * x ^ (i + j))
    _ = ∑ i ∈ Finset.range D, ∑ j ∈ Finset.range (2 * D - 1 - i),
          padTo q D a i * padTo q D b j * x ^ (i + j) := by
        symm
        apply Finset.sum_subset
        · intro y hy
          rw [Finset.mem_range] at hy ⊢
          omega
        · intro i _ hnotin
          rw [Finset.mem_range] at hnotin
          apply Finset.sum_eq_zero
          intro j _
          have hpad : padTo q D a i = 0 := if_neg (by omega)
          rw [hpad, zero_mul, zero_mul]
    _ = ∑ i ∈ Finset.range D, ∑ j ∈ Finset.range D,
          padTo q D a i * padTo q D b j * x ^ (i + j) := by
        refine Finset.sum_congr rfl fun i hi => ?_
        rw [Finset.mem_range] at hi
        symm
        apply Finset.sum_subset
        · intro y hy
          rw [Finset.mem_range] at hy ⊢
          omega
        · intro j _ hnotin
          rw [Finset.mem_range] at hnotin
          have hpad : padTo q D b j = 0 := if_neg (by omega)
          rw [hpad, mul_zero, zero_mul]
    _ = (∑ i ∈ Finset.range D, a i * x ^ i) * (∑ j ∈ Finset.range D, b j * x ^ j) := by
        rw [Finset.sum_mul_sum]
        refine Finset.sum_congr rfl fun i hi => Finset.sum_congr rfl fun j hj => ?_
        rw [Finset.mem_range] at hi hj
        have hai : padTo q D a i = a i := if_pos hi
        have hbj : padTo q D b j = b j := if_pos hj
        rw [hai, hbj, pow_add]
        ring
/-- Evaluating the reference negacyclic product at a point `x` with
`x^D = -1` gives the product of the evaluations: the `From<PolynomialZ_N>`
fold implements exactly the reduction by `X^D = -1`. -/
theorem cycloMul_eval {q D : Nat} (hD : 0 < D) (a b : Nat → ZMod q) (x : ZMod q)
    (hx : x ^ D = -1) :
    ∑ m ∈ Finset.range D, cycloMul q D a b m * x ^ m =
      (∑ i ∈ Finset.range D, a i * x ^ i) * (∑ j ∈ Finset.range D, b j * x ^ j) := by
  set p := polyMulCoeff q (padTo q D a) (padTo q D b) with hp
  have hsplit : 2 * D - 1 = D + (D - 1) := by omega
  have hfull : ∑ k ∈ Finset.range (2 * D - 1), p k * x ^ k =
      (∑ m ∈ Finset.range D, p m * x ^ m) -
        ∑ m ∈ Finset.range (D - 1), p (D + m) * x ^ m := by
    rw [hsplit, sum_range_split]
    have hneg : ∑ m ∈ Finset.range (D - 1), p (D + m) * x ^ (D + m) =
        -∑ m ∈ Finset.range (D - 1), p (D + m) * x ^ m := by
      rw [← Finset.sum_neg_distrib]
      refine Finset.sum_congr rfl fun m _ => ?_
      rw [pow_add, hx]
      ring
    rw [hneg]
    ring
  have hred : ∑ m ∈ Finset.range D, cycloMul q D a b m * x ^ m =
      (∑ m ∈ Finset.range D, p m * x ^ m) -
        ∑ m ∈ Finset.range (D - 1), p (D + m) * x ^ m := by
    have hterm : ∀ m, m < D → cycloMul q D a b m * x ^ m =
        p m * x ^ m - (if m + D < 2 * D - 1 then p (m + D) else 0) * x ^ m := by
      intro m hm
      rw [cycloMul, fromPoly_get hD _ m hm, ← hp]
      ring
    calc ∑ m ∈ Finset.range D, cycloMul q D a b m * x ^ m
        = ∑ m ∈ Finset.range D,
            (p m * x ^ m - (if m + D < 2 * D - 1 then p (m + D) else 0) * x ^ m) := by
          refine Finset.sum_congr rfl fun m hm => ?_
          rw [Finset.mem_range] at hm
          exact hterm m hm
      _ = (∑ m ∈ Finset.range D, p m * x ^ m) -
            ∑ m ∈ Finset.range D, (if m + D < 2 * D - 1 then p (m + D) else 0) * x ^ m := by
          rw [Finset.sum_sub_distrib]
      _ = (∑ m ∈ Finset.range D, p m * x ^ m) -
            ∑ m ∈ Finset.range (D - 1), p (D + m) * x ^ m := by
          have hguard : ∑ m ∈ Finset.range D,
              (if m + D < 2 * D - 1 then p (m + D) else 0) * x ^ m =
              ∑ m ∈ Finset.range (D - 1), p (D + m) * x ^ m := by
            obtain ⟨e, rfl⟩ : ∃ e, D = e + 1 := ⟨D - 1, by omega⟩
            rw [Finset.sum_range_succ]
            have hlast : (if e + (e + 1) < 2 * (e + 1) - 1 then p (e + (e + 1)) else 0) *
                x ^ e = 0 := by
              rw [if_neg (by omega), zero_mul]
            rw [hlast, add_zero]
            have he1 : e + 1 - 1 = e := by omega
            rw [he1]
            refine Finset.sum_congr rfl fun m hm => ?_
            rw [Finset.mem_range] at hm
            rw [if_pos (by omega)]
            congr 2
            omega
          rw [hguard]
  rw [hred, ← hfull, hp]
  exact polyMul_eval hD a b x
/-- C2: NTT multiplicativity. For every power-of-two `D = 2^d ≥ 4`,
NTT-friendly prime `q < 2^30` with primitive `2D`-th root `W`, and canonical
coefficient arrays `a`, `b`, transforming both with `ntt_neg_forward`,
multiplying the transforms pointwise mod `q`, and applying
`ntt_neg_backward` yields (canonically) the reference negacyclic product of
`Z_N_CycloRaw` — the plain polynomial product reduced by `X^D = -1`. -/
theorem claim_C2_ntt_multiplicativity {d q W : Nat} (hd : 2 ≤ d) (hp : Nat.Prime q)
    (hq30 : q < 2 ^ 30) (hdvd : 2 * 2 ^ d ∣ q - 1)
    (horder : orderOf (W : ZMod q) = 2 * 2 ^ d)
    {a b : Nat → Nat} (ha : ∀ i, i < 2 ^ d → a i < q) (hb : ∀ i, i < 2 ^ d → b i < q) :
    ∀ i, i < 2 ^ d →
      ntt_neg_backward (2 ^ d) q W
        (fun j => ntt_neg_forward (2 ^ d) q W a j * ntt_neg_forward (2 ^ d) q W b j % q)
        i < q ∧
      ((ntt_neg_backward (2 ^ d) q W
        (fun j => ntt_neg_forward (2 ^ d) q W a j * ntt_neg_forward (2 ^ d) q W b j % q)
        i : Nat) : ZMod q) =
        cycloMul q (2 ^ d) (fun j => ((a j : Nat) : ZMod q))
          (fun j => ((b j : Nat) : ZMod q)) i := by
  obtain ⟨hW, hWgcd, hDgcd⟩ := ntt_root_facts hp hdvd horder
  have hq : 0 < q := hp.pos
  have hWinv := mod_inverse_spec hq hWgcd
  have hDinv := mod_inverse_spec hq hDgcd
  have hfa := ntt_neg_forward_bridge (W := W) hq hq30 ha
  have hfb := ntt_neg_forward_bridge (W := W) hq hq30 hb
  have hpwlt : ∀ j, j < 2 ^ d →
      (fun j => ntt_neg_forward (2 ^ d) q W a j * ntt_neg_forward (2 ^ d) q W b j % q) j
        < q := fun j _ => Nat.mod_lt _ hq
  have hbwd := ntt_neg_backward_bridge (W := W) hq hq30 hpwlt
  intro i hi
  obtain ⟨hlt, hcast⟩ := hbwd i hi
  refine ⟨hlt, ?_⟩
  rw [hcast]
  have hpwcast : ∀ j, j < 2 ^ d →
      ((ntt_neg_forward (2 ^ d) q W a j * ntt_neg_forward (2 ^ d) q W b j % q : Nat) :
          ZMod q) =
        forN d (ntt_math_forward_round q W d) (fun m => ((a m : Nat) : ZMod q)) j *
          forN d (ntt_math_forward_round q W d) (fun m => ((b m : Nat) : ZMod q)) j := by
    intro j hj
    rw [ZMod.natCast_mod, Nat.cast_mul, (hfa j hj).2, (hfb j hj).2]
  have hFwdP : ∀ j, j < 2 ^ d →
      forN d (ntt_math_forward_round q W d) (fun m => ((a m : Nat) : ZMod q)) j *
        forN d (ntt_math_forward_round q W d) (fun m => ((b m : Nat) : ZMod q)) j =
      forN d (ntt_math_forward_round q W d)
        (cycloMul q (2 ^ d) (fun m => ((a m : Nat) : ZMod q))
          (fun m => ((b m : Nat) : ZMod q))) j := by
    intro j hj
    have hk : reverse_bits d (reverse_bits d j) = j := reverse_bits_involution hj
    set k := reverse_bits d j with hkdef
    have hklt : k < 2 ^ d := reverse_bits_lt d j
    have hxD : ((W : ZMod q) ^ (2 * k + 1)) ^ 2 ^ d = -1 := by
      rw [← pow_mul, Nat.mul_comm, pow_mul, hW]
      exact Odd.neg_one_pow ⟨k, by ring⟩
    have hDpos : 0 < 2 ^ d := Nat.pos_pow_of_pos _ (by omega)
    have hsum : ∀ c : Nat → ZMod q,
        ∑ j ∈ Finset.range (2 ^ d), c j * (W : ZMod q) ^ ((2 * k + 1) * j) =
        ∑ j ∈ Finset.range (2 ^ d), c j * ((W : ZMod q) ^ (2 * k + 1)) ^ j := by
      intro c
      exact Finset.sum_congr rfl fun j _ => by rw [← pow_mul]
    calc forN d (ntt_math_forward_round q W d) (fun m => ((a m : Nat) : ZMod q)) j *
          forN d (ntt_math_forward_round q W d) (fun m => ((b m : Nat) : ZMod q)) j
        = forN d (ntt_math_forward_round q W d) (fun m => ((a m : Nat) : ZMod q))
            (reverse_bits d k) *
          forN d (ntt_math_forward_round q W d) (fun m => ((b m : Nat) : ZMod q))
            (reverse_bits d k) := by rw [hk]
      _ = (∑ m ∈ Finset.range (2 ^ d),
            ((a m : Nat) : ZMod q) * ((W : ZMod q) ^ (2 * k + 1)) ^ m) *
          (∑ m ∈ Finset.range (2 ^ d),
            ((b m : Nat) : ZMod q) * ((W : ZMod q) ^ (2 * k + 1)) ^ m) := by
          rw [ntt_math_forward_dft hW _ k hklt, ntt_math_forward_dft hW _ k hklt,
            hsum (fun m => ((a m : Nat) : ZMod q)), hsum (fun m => ((b m : Nat) : ZMod q))]
      _ = ∑ m ∈ Finset.range (2 ^ d),
            cycloMul q (2 ^ d) (fun m => ((a m : Nat) : ZMod q))
              (fun m => ((b m : Nat) : ZMod q)) m * ((W : ZMod q) ^ (2 * k + 1)) ^ m := by
          rw [cycloMul_eval hDpos _ _ _ hxD]
      _ = forN d (ntt_math_forward_round q W d)
            (cycloMul q (2 ^ d) (fun m => ((a m : Nat) : ZMod q))
              (fun m => ((b m : Nat) : ZMod q))) (reverse_bits d k) := by
          rw [ntt_math_forward_dft hW _ k hklt, hsum]
      _ = forN d (ntt_math_forward_round q W d)
            (cycloMul q (2 ^ d) (fun m => ((a m : Nat) : ZMod q))
              (fun m => ((b m : Nat) : ZMod q))) j := by rw [hk]
  have h1 := ntt_math_backward_rounds_congr (W := W) hpwcast d (le_refl d) i hi
  have h2 := ntt_math_backward_rounds_congr (W := W) hFwdP d (le_refl d) i hi
  have htel := ntt_math_telescope hWinv
    (cycloMul q (2 ^ d) (fun m => ((a m : Nat) : ZMod q))
      (fun m => ((b m : Nat) : ZMod q))) d (le_refl d) i hi
  have hzero : d - d = 0 := by omega
  rw [hzero] at htel
  simp only [forN] at htel
  show ((mod_inverse (2 ^ d) q : Nat) : ZMod q) *
      forN d (ntt_math_backward_round q W d)
        (fun m => ((ntt_neg_forward (2 ^ d) q W a m * ntt_neg_forward (2 ^ d) q W b m % q :
          Nat) : ZMod q)) i =
    cycloMul q (2 ^ d) (fun m => ((a m : Nat) : ZMod q)) (fun m => ((b m : Nat) : ZMod q)) i
  rw [h1, h2, htel]
  have hpow : (((2 ^ d : Nat)) : ZMod q) = (2 : ZMod q) ^ d := by push_cast; rfl
  calc ((mod_inverse (2 ^ d) q : Nat) : ZMod q) *
        ((2 : ZMod q) ^ d *
          cycloMul q (2 ^ d) (fun m => ((a m : Nat) : ZMod q))
            (fun m => ((b m : Nat) : ZMod q)) i)
      = (((mod_inverse (2 ^ d) q : Nat) : ZMod q) * (2 : ZMod q) ^ d) *
          cycloMul q (2 ^ d) (fun m => ((a m : Nat) : ZMod q))
            (fun m => ((b m : Nat) : ZMod q)) i := by ring
    _ = cycloMul q (2 ^ d) (fun m => ((a m : Nat) : ZMod q))
          (fun m => ((b m : Nat) : ZMod q)) i := by
        rw [← hpow, hDinv, one_mul]
theorem claim_C2_ntt_multiplicativity_witness :
    Nat.Prime 17 ∧
    (ntt_neg_backward (2 ^ 2) 17 2
        (fun j => ntt_neg_forward (2 ^ 2) 17 2 (fun m => m + 1) j *
          ntt_neg_forward (2 ^ 2) 17 2 (fun m => m + 2) j % 17) 0 < 17 ∧
      ((ntt_neg_backward (2 ^ 2) 17 2
        (fun j => ntt_neg_forward (2 ^ 2) 17 2 (fun m => m + 1) j *
          ntt_neg_forward (2 ^ 2) 17 2 (fun m => m + 2) j % 17) 0 : Nat) : ZMod 17) =
        cycloMul 17 (2 ^ 2) (fun m => ((m + 1 : Nat) : ZMod 17))
          (fun m => ((m + 2 : Nat) : ZMod 17)) 0) := by
  refine ⟨by norm_num, ?_⟩
  have h := claim_C2_ntt_multiplicativity (d := 2) (q := 17) (W := 2)
    (a := fun m => m + 1) (b := fun m => m + 2)
    (by norm_num) (by norm_num) (by norm_num) (by decide)
    (by rw [orderOf_eq_iff (by norm_num)]; decide)
    (by intro i _; show i + 1 < 17; omega) (by intro i _; show i + 2 < 17; omega)
  exact h 0 (by norm_num)

/-- C10: `Z_N_CycloRaw::one()` returns the all-ones coefficient array
(`1 + X + ... + X^(D-1)`); consequently, for every `D > 1` and `N > 1` it is
not a multiplicative identity of `Z_N[X]/(X^D+1)`: multiplying it by the
constant polynomial `1` (delta at coefficient `0`) changes that polynomial —
even though the `RingElement` trait documents `one()` as the multiplicative
identity. -/
theorem claim_C10_one_not_identity {D q : Nat} (hD : 1 < D) (hq : 1 < q) :
    (∀ i, i < D → z_n_cyclo_one q D i = 1) ∧
    ∃ x : Nat → ZMod q, ∃ i, i < D ∧
      cycloMul q D (z_n_cyclo_one q D) x i ≠ x i := by
  haveI : Fact (1 < q) := ⟨hq⟩
  constructor
  · intro i hi
    exact if_pos hi
  · refine ⟨fun j => if j = 0 then 1 else 0, 1, hD, ?_⟩
    have hx1 : (fun j => if j = 0 then (1 : ZMod q) else 0) 1 = 0 := by norm_num
    have hDpos : 0 < D := by omega
    have hmul : cycloMul q D (z_n_cyclo_one q D) (fun j => if j = 0 then 1 else 0) 1 =
        1 := by
      rw [cycloMul, fromPoly_get hDpos _ 1 hD]
      have hconv1 : polyMulCoeff q (padTo q D (z_n_cyclo_one q D))
          (padTo q D (fun j => if j = 0 then 1 else 0)) 1 = 1 := by
        rw [polyMulCoeff]
        rw [Finset.sum_range_succ, Finset.sum_range_one]
        have h00 : padTo q D (z_n_cyclo_one q D) 0 = 1 := by
          rw [padTo, if_pos hDpos, z_n_cyclo_one, if_pos hDpos]
        have h01 : padTo q D (z_n_cyclo_one q D) 1 = 1 := by
          rw [padTo, if_pos hD, z_n_cyclo_one, if_pos hD]
        have hd1 : padTo q D (fun j => if j = 0 then (1 : ZMod q) else 0) (1 - 0) = 0 := by
          rw [padTo, if_pos hD]
          norm_num
        have hd0 : padTo q D (fun j => if j = 0 then (1 : ZMod q) else 0) (1 - 1) = 1 := by
          rw [padTo, if_pos hDpos]
          norm_num
        rw [h00, h01, hd1, hd0]
        ring
      have hconv2 : polyMulCoeff q (padTo q D (z_n_cyclo_one q D))
          (padTo q D (fun j => if j = 0 then 1 else 0)) (1 + D) = 0 := by
        rw [polyMulCoeff]
        apply Finset.sum_eq_zero
        intro i hi
        rw [Finset.mem_range] at hi
        by_cases hiD : i < D
        · have hdel : padTo q D (fun j => if j = 0 then (1 : ZMod q) else 0) (1 + D - i)
              = 0 := by
            rw [padTo]
            by_cases hlt : 1 + D - i < D
            · rw [if_pos hlt, if_neg (by omega)]
            · rw [if_neg hlt]
          rw [hdel, mul_zero]
        · have hone : padTo q D (z_n_cyclo_one q D) i = 0 := by
            rw [padTo, if_neg hiD]
          rw [hone, zero_mul]
      rw [hconv1, hconv2]
      by_cases hg : 1 + D < 2 * D - 1
      · rw [if_pos hg]; ring
      · rw [if_neg hg]; ring
    rw [hmul, hx1]
    exact one_ne_zero
theorem claim_C10_one_not_identity_witness :
    1 < 2 ∧ 1 < 3 ∧ z_n_cyclo_one 3 2 1 = 1 ∧
    ∃ x : Nat → ZMod 3, ∃ i, i < 2 ∧ cycloMul 3 2 (z_n_cyclo_one 3 2) x i ≠ x i := by
  have h := claim_C10_one_not_identity (D := 2) (q := 3) (by norm_num) (by norm_num)
  exact ⟨by norm_num, by norm_num, h.1 1 (by norm_num), h.2⟩
/-- One iteration `j` of the `build_gadget` loop (`gadget.rs` lines 20-31):
write `x` at `(i, j)`, multiply `x` by the base, and when `j % G_LEN =
G_LEN - 1` move to the next row and reset `x` to `1`. The running power `x`
is a `u64` in the source; since `x` never exceeds `z^(G_LEN-1) < Q ≤ 2^64`
it is modelled as an exact `Nat`. -/
def build_gadget_step (R : Type) [CommRing R] (z gLen : Nat) (j : Nat)
    (s : (Nat → Nat → R) × Nat × Nat) : (Nat → Nat → R) × Nat × Nat :=
  let g2 := fun r c => if r = s.2.1 ∧ c = j then ((s.2.2 : Nat) : R) else s.1 r c
  if j % gLen = gLen - 1 then (g2, s.2.1 + 1, 1) else (g2, s.2.1, s.2.2 * z)

/-- `build_gadget` (`gadget.rs` lines 9-33): starting from the zero matrix,
`x = 1`, `i = 0`, run the loop for all `M` columns. -/
def build_gadget (R : Type) [CommRing R] (z gLen M : Nat) : Nat → Nat → R :=
  (forN M (build_gadget_step R z gLen) (fun _ _ => 0, 0, 1)).1

/-- `gadget_inverse` (`gadget.rs` lines 50-70): for each entry `(i, j)` of
the input, write its `G_LEN` base-`z` digits into rows `i*G_LEN ..
i*G_LEN+G_LEN-1` of column `j`. The trait method `decompose_into_mat` is
abstracted by the digit function `decomp` (the claim quantifies over rings
whose decomposition is correct), and `Matrix` itself (`matrix.rs`, absent
from the sources) by an index function that is zero outside `M x K`. -/
def gadget_inverse (R : Type) [CommRing R] (decomp : R → Nat → R)
    (gLen N K : Nat) (X : Nat → Nat → R) : Nat → Nat → R :=
  fun r c => if r < N * gLen ∧ c < K then decomp (X (r / gLen) c) (r % gLen) else 0

/-- Modelled from the spec: `Matrix` multiplication (`matrix.rs` is absent
from the sources); standard row-by-column product over the ring. -/
def matMul (R : Type) [CommRing R] (inner : Nat) (A B : Nat → Nat → R) :
    Nat → Nat → R :=
  fun r c => ∑ t ∈ Finset.range inner, A r t * B t c

/-- Loop invariant of `build_gadget`: after `n` columns the row index is
`n / gLen`, the running power is `z^(n % gLen)`, and column `c < n` holds
`z^(c % gLen)` in row `c / gLen` and `0` elsewhere. -/
theorem build_gadget_invariant (R : Type) [CommRing R] (z gLen : Nat)
    (hg : 0 < gLen) : ∀ n,
    (forN n (build_gadget_step R z gLen) (fun _ _ => 0, 0, 1)).2.1 = n / gLen ∧
    (forN n (build_gadget_step R z gLen) (fun _ _ => 0, 0, 1)).2.2 = z ^ (n % gLen) ∧
    ∀ r c, (forN n (build_gadget_step R z gLen) (fun _ _ => 0, 0, 1)).1 r c =
      if c < n ∧ r = c / gLen then ((z ^ (c % gLen) : Nat) : R) else 0 := by
  intro n
  induction n with
  | zero =>
    refine ⟨by simp [forN], by simp [forN], ?_⟩
    intro r c
    simp [forN]
  | succ n ih =>
    obtain ⟨ihi, ihx, ihg⟩ := ih
    have hdm := Nat.div_add_mod n gLen
    have hmlt : n % gLen < gLen := Nat.mod_lt _ hg
    have hstep : forN (n + 1) (build_gadget_step R z gLen) (fun _ _ => 0, 0, 1) =
        build_gadget_step R z gLen n
          (forN n (build_gadget_step R z gLen) (fun _ _ => 0, 0, 1)) := rfl
    by_cases hres : n % gLen = gLen - 1
    · have hdist : gLen * (n / gLen + 1) = gLen * (n / gLen) + gLen := by ring
      have hn1 : n + 1 = gLen * (n / gLen + 1) := by omega
      have hdiv : (n + 1) / gLen = n / gLen + 1 := by
        rw [hn1, Nat.mul_div_cancel_left _ hg]
      have hmod : (n + 1) % gLen = 0 := by
        rw [hn1, Nat.mul_mod_right]
      have hs : build_gadget_step R z gLen n
          (forN n (build_gadget_step R z gLen) (fun _ _ => 0, 0, 1)) =
          ((fun r c => if r = n / gLen ∧ c = n then ((z ^ (n % gLen) : Nat) : R)
            else (forN n (build_gadget_step R z gLen) (fun _ _ => 0, 0, 1)).1 r c),
           n / gLen + 1, 1) := by
        rw [build_gadget_step, if_pos hres, ihi, ihx]
      rw [hstep, hs]
      refine ⟨by rw [hdiv], by rw [hmod, pow_zero], ?_⟩
      intro r c
      simp only []
      by_cases hc : c = n
      · by_cases hr : r = c / gLen
        · rw [if_pos ⟨by rw [hc] at hr; exact hr, hc⟩,
            if_pos ⟨by omega, hr⟩]
          rw [hc]
        · have hr2 : ¬ r = n / gLen := by rw [← hc]; exact hr
          rw [if_neg (by tauto), ihg, if_neg (by omega), if_neg (by tauto)]
      · have h1 : ¬(r = n / gLen ∧ c = n) := by tauto
        rw [if_neg h1, ihg]
        by_cases h2 : c < n ∧ r = c / gLen
        · rw [if_pos h2, if_pos ⟨by omega, h2.2⟩]
        · rw [if_neg h2, if_neg (by omega)]
    · have hmlt2 : n % gLen + 1 < gLen := by omega
      have hn1 : n + 1 = gLen * (n / gLen) + (n % gLen + 1) := by omega
      have hdiv : (n + 1) / gLen = n / gLen := by
        rw [hn1, Nat.mul_add_div hg, Nat.div_eq_of_lt hmlt2, Nat.add_zero]
      have hmod : (n + 1) % gLen = n % gLen + 1 := by
        rw [hn1, Nat.mul_add_mod, Nat.mod_eq_of_lt hmlt2]
      have hs : build_gadget_step R z gLen n
          (forN n (build_gadget_step R z gLen) (fun _ _ => 0, 0, 1)) =
          ((fun r c => if r = n / gLen ∧ c = n then ((z ^ (n % gLen) : Nat) : R)
            else (forN n (build_gadget_step R z gLen) (fun _ _ => 0, 0, 1)).1 r c),
           n / gLen, z ^ (n % gLen) * z) := by
        rw [build_gadget_step, if_neg hres, ihi, ihx]
      rw [hstep, hs]
      refine ⟨by rw [hdiv], by rw [hmod, pow_succ], ?_⟩
      intro r c
      simp only []
      by_cases hc : c = n
      · by_cases hr : r = c / gLen
        · rw [if_pos ⟨by rw [hc] at hr; exact hr, hc⟩,
            if_pos ⟨by omega, hr⟩]
          rw [hc]
        · have hr2 : ¬ r = n / gLen := by rw [← hc]; exact hr
          rw [if_neg (by tauto), ihg, if_neg (by omega), if_neg (by tauto)]
      · have h1 : ¬(r = n / gLen ∧ c = n) := by tauto
        rw [if_neg h1, ihg]
        by_cases h2 : c < n ∧ r = c / gLen
        · rw [if_pos h2, if_pos ⟨by omega, h2.2⟩]
        · rw [if_neg h2, if_neg (by omega)]

theorem build_gadget_get (R : Type) [CommRing R] (z gLen M : Nat) (hg : 0 < gLen)
    (r c : Nat) :
    build_gadget R z gLen M r c =
      if c < M ∧ r = c / gLen then ((z ^ (c % gLen) : Nat) : R) else 0 :=
  (build_gadget_invariant R z gLen hg M).2.2 r c
/-- C4: gadget identity. For every base `z ≥ 2`, gadget length `g_len > 0`,
`M = N * g_len`, and every `N x K` matrix `X` over a commutative ring whose
digit function `decomp` is a correct base-`z` decomposition
(`Σ_t decomp(x)_t · z^t = x` over `g_len` digits), the product
`build_gadget * gadget_inverse(X)` equals `X` exactly at every in-range
entry. -/
theorem claim_C4_gadget_identity {R : Type} [CommRing R] {z gLen N K : Nat}
    (hz : 2 ≤ z) (hg : 0 < gLen) (decomp : R → Nat → R)
    (hdecomp : ∀ x : R, ∑ t ∈ Finset.range gLen, decomp x t * (z : R) ^ t = x)
    (X : Nat → Nat → R) {r c : Nat} (hr : r < N) (hc : c < K) :
    matMul R (N * gLen) (build_gadget R z gLen (N * gLen))
      (gadget_inverse R decomp gLen N K X) r c = X r c := by
  rw [matMul]
  have hsub : Finset.Ico (r * gLen) (r * gLen + gLen) ⊆ Finset.range (N * gLen) := by
    intro t ht
    rw [Finset.mem_Ico] at ht
    rw [Finset.mem_range]
    have hmul : (r + 1) * gLen ≤ N * gLen := Nat.mul_le_mul_right _ (by omega)
    have hdist : (r + 1) * gLen = r * gLen + gLen := by ring
    omega
  have hvanish : ∀ t ∈ Finset.range (N * gLen),
      t ∉ Finset.Ico (r * gLen) (r * gLen + gLen) →
      build_gadget R z gLen (N * gLen) r t *
        gadget_inverse R decomp gLen N K X t c = 0 := by
    intro t ht hnot
    rw [Finset.mem_range] at ht
    rw [Finset.mem_Ico] at hnot
    push_neg at hnot
    rw [build_gadget_get _ _ _ _ hg]
    by_cases hrt : r = t / gLen
    · exfalso
      have hdm := Nat.div_add_mod t gLen
      have hmlt : t % gLen < gLen := Nat.mod_lt _ hg
      rw [← hrt] at hdm
      have hcomm : gLen * r = r * gLen := by ring
      omega
    · rw [if_neg (by tauto), zero_mul]
  rw [← Finset.sum_subset hsub hvanish, Finset.sum_Ico_eq_sum_range]
  have hlen : r * gLen + gLen - r * gLen = gLen := by omega
  rw [hlen]
  have hterm : ∀ s, s < gLen →
      build_gadget R z gLen (N * gLen) r (r * gLen + s) *
        gadget_inverse R decomp gLen N K X (r * gLen + s) c =
      decomp (X r c) s * (z : R) ^ s := by
    intro s hs
    have hsd : (r * gLen + s) / gLen = r := by
      rw [Nat.add_comm, Nat.add_mul_div_right _ _ hg, Nat.div_eq_of_lt hs, Nat.zero_add]
    have hsm : (r * gLen + s) % gLen = s := by
      rw [Nat.add_comm, Nat.add_mul_mod_self_right, Nat.mod_eq_of_lt hs]
    have hlt : r * gLen + s < N * gLen := by
      have hmul : (r + 1) * gLen ≤ N * gLen := Nat.mul_le_mul_right _ (by omega)
      have hdist : (r + 1) * gLen = r * gLen + gLen := by ring
      omega
    rw [build_gadget_get _ _ _ _ hg, if_pos ⟨hlt, hsd.symm⟩,
      gadget_inverse, if_pos ⟨hlt, hc⟩, hsd, hsm]
    push_cast
    ring
  calc ∑ s ∈ Finset.range gLen,
        build_gadget R z gLen (N * gLen) r (r * gLen + s) *
          gadget_inverse R decomp gLen N K X (r * gLen + s) c
      = ∑ s ∈ Finset.range gLen, decomp (X r c) s * (z : R) ^ s := by
        refine Finset.sum_congr rfl fun s hs => ?_
        rw [Finset.mem_range] at hs
        exact hterm s hs
    _ = X r c := hdecomp (X r c)

theorem claim_C4_gadget_identity_witness :
    2 ≤ 2 ∧
    matMul (ZMod 11) (1 * 4) (build_gadget (ZMod 11) 2 4 (1 * 4))
      (gadget_inverse (ZMod 11)
        (fun x t => (((ZMod.val x >>> t) % 2 : Nat) : ZMod 11)) 4 1 1
        (fun _ _ => 7)) 0 0 = 7 := by
  refine ⟨by norm_num, ?_⟩
  have key : ∀ x : ZMod 11, ∑ t ∈ Finset.range 4,
      (((ZMod.val x >>> t) % 2 : Nat) : ZMod 11) * ((2 : Nat) : ZMod 11) ^ t = x := by
    intro x
    have hv : ZMod.val x < 16 := lt_of_lt_of_le (ZMod.val_lt x) (by norm_num)
    have h16 : ∀ v, v < 16 → (v >>> 0) % 2 * 2 ^ 0 + ((v >>> 1) % 2 * 2 ^ 1 +
        ((v >>> 2) % 2 * 2 ^ 2 + ((v >>> 3) % 2 * 2 ^ 3 + 0))) = v := by decide
    have hsum : (∑ t ∈ Finset.range 4,
        (((ZMod.val x >>> t) % 2 : Nat) : ZMod 11) * ((2 : Nat) : ZMod 11) ^ t) =
        (((ZMod.val x >>> 0) % 2 * 2 ^ 0 + ((ZMod.val x >>> 1) % 2 * 2 ^ 1 + ((ZMod.val x >>> 2) % 2 * 2 ^ 2 + ((ZMod.val x >>> 3) % 2 * 2 ^ 3 + 0))) : Nat) : ZMod 11) := by
      rw [Finset.sum_range_succ, Finset.sum_range_succ, Finset.sum_range_succ,
        Finset.sum_range_one]
      push_cast
      ring
    rw [hsum, h16 _ hv]
    exact ZMod.natCast_rightInverse x
  exact claim_C4_gadget_identity (by norm_num) (by norm_num)
    (fun x t => (((ZMod.val x >>> t) % 2 : Nat) : ZMod 11)) key (fun _ _ => 7)
    (by norm_num) (by norm_num)
/-- `idx_to_buckets` (`cuckoo_respire.rs` lines 263-274) on the already
hashed value: the three candidate buckets are the first three base-`K`
digits of the 64-bit hash. `DefaultHasher` (marked unstable in the source)
is abstracted by a hash-function parameter at the call sites. -/
def idx_to_buckets (K hashed : Nat) : Nat × Nat × Nat :=
  (hashed % K, hashed / K % K, hashed / K / K % K)

/-- `HashMap::get` on the bucket-to-item map, modelled as an association
list: the value of the first entry with the given key. -/
def mapGet (m : List (Nat × Nat)) (k : Nat) : Option Nat :=
  match m with
  | [] => none
  | e :: rest => if e.1 = k then some e.2 else mapGet rest k

/-- `HashMap::insert`: replace any entry with the given key, else add. -/
def mapInsert (m : List (Nat × Nat)) (k v : Nat) : List (Nat × Nat) :=
  (k, v) :: m.filter (fun e => e.1 != k)

/-- The `while let Some((idx, depth)) = remaining.pop()` loop of `cuckoo`
(`cuckoo_respire.rs` lines 279-316). State: the thread-rng draws
(`coins`, consumed one per eviction, reduced mod 3 as `gen_range(0..3)`),
the bucket map, and the stack of pending `(item index, depth)` pairs with
the top of the `Vec` at the head. Returns `none` when a popped entry has
`depth ≥ max_depth`, otherwise places the item in the first free candidate
bucket or evicts a random occupant. -/
def cuckooLoop (maxDepth : Nat) (buckets : Nat → Nat × Nat × Nat)
    (coins : Nat → Nat) : Nat → List (Nat × Nat) → List (Nat × Nat) →
    Option (List (Nat × Nat))
  | _, mapping, [] => some mapping
  | t, mapping, (idx, depth) :: rest =>
    if hdep : depth ≥ maxDepth then none
    else
      match mapGet mapping (buckets idx).1, mapGet mapping (buckets idx).2.1,
          mapGet mapping (buckets idx).2.2 with
      | none, _, _ =>
        cuckooLoop maxDepth buckets coins t (mapInsert mapping (buckets idx).1 idx) rest
      | some _, none, _ =>
        cuckooLoop maxDepth buckets coins t (mapInsert mapping (buckets idx).2.1 idx) rest
      | some _, some _, none =>
        cuckooLoop maxDepth buckets coins t (mapInsert mapping (buckets idx).2.2 idx) rest
      | some c1, some c2, some c3 =>
        if coins t % 3 = 0 then
          cuckooLoop maxDepth buckets coins (t + 1)
            (mapInsert mapping (buckets idx).1 idx) ((c1, depth + 1) :: rest)
        else if coins t % 3 = 1 then
          cuckooLoop maxDepth buckets coins (t + 1)
            (mapInsert mapping (buckets idx).2.1 idx) ((c2, depth + 1) :: rest)
        else
          cuckooLoop maxDepth buckets coins (t + 1)
            (mapInsert mapping (buckets idx).2.2 idx) ((c3, depth + 1) :: rest)
  termination_by _ _ remaining => (remaining.map (fun e => maxDepth + 1 - e.2)).sum
  decreasing_by
    all_goals simp only [List.map_cons, List.sum_cons]
    all_goals omega

/-- `cuckoo` (`cuckoo_respire.rs` lines 279-316): item position `idx` has
candidate buckets `idx_to_buckets(items[idx])`; the initial stack holds
positions `0..n` with depth `0` and is popped from the back of the `Vec`,
so position `n-1` is processed first; the head of the model list is the
top of the stack. -/
def cuckoo_model (K : Nat) (hash items : Nat → Nat) (n maxDepth : Nat)
    (coins : Nat → Nat) : Option (List (Nat × Nat)) :=
  cuckooLoop maxDepth (fun idx => idx_to_buckets K (hash (items idx))) coins 0 []
    ((List.range n).reverse.map (fun i => (i, 0)))

/-- Outcome of the cuckoo stage of `CuckooRespireImpl::query`
(`cuckoo_respire.rs` lines 166-201): the code runs
`Self::cuckoo(record_idxs, 2usize.pow(16)).unwrap()`; `unwrap()` on `None`
panics, which is modelled as the distinguished outcome `panicked` — distinct
from any value returned to the caller. -/
inductive QueryOutcome where
  | ok : List (Nat × Nat) → QueryOutcome
  | panicked : QueryOutcome
deriving DecidableEq

/-- The cuckoo stage of `query`: fixed `max_depth = 2^16`, result unwrapped. -/
def query_cuckoo (K n : Nat) (hash items coins : Nat → Nat) : QueryOutcome :=
  match cuckoo_model K hash items n (2 ^ 16) coins with
  | some m => QueryOutcome.ok m
  | none => QueryOutcome.panicked
theorem mapGet_none_not_key {m : List (Nat × Nat)} {k : Nat}
    (h : mapGet m k = none) : ∀ e, e ∈ m → e.1 ≠ k := by
  induction m with
  | nil => intro e he; cases he
  | cons a rest ih =>
    intro e he
    rw [mapGet] at h
    by_cases hak : a.1 = k
    · rw [if_pos hak] at h; cases h
    · rw [if_neg hak] at h
      rcases List.mem_cons.mp he with rfl | hmem
      · exact hak
      · exact ih h e hmem

theorem filter_eq_of_no_key {m : List (Nat × Nat)} {k : Nat}
    (h : ∀ e, e ∈ m → e.1 ≠ k) : m.filter (fun e => e.1 != k) = m := by
  induction m with
  | nil => rfl
  | cons a rest ih =>
    rw [List.filter_cons]
    have ha : (a.1 != k) = true := by
      have := h a (List.mem_cons_self a rest)
      simpa using this
    rw [if_pos ha, ih (fun e he => h e (List.mem_cons_of_mem a he))]

theorem mapInsert_keys_nodup {m : List (Nat × Nat)} {k v : Nat}
    (h : (m.map Prod.fst).Nodup) :
    ((mapInsert m k v).map Prod.fst).Nodup := by
  rw [mapInsert, List.map_cons, List.nodup_cons]
  constructor
  · intro hmem
    rw [List.mem_map] at hmem
    obtain ⟨e, hemem, heq⟩ := hmem
    rw [List.mem_filter] at hemem
    have h2 := hemem.2
    simp only [bne_iff_ne, decide_eq_true_eq] at h2
    exact h2 heq
  · have hsub : (m.filter (fun e => e.1 != k)).Sublist m := List.filter_sublist m
    exact (hsub.map Prod.fst).nodup h

theorem mapInsert_mem {m : List (Nat × Nat)} {k v : Nat} {p : Nat × Nat}
    (h : p ∈ mapInsert m k v) : p = (k, v) ∨ p ∈ m := by
  rw [mapInsert, List.mem_cons] at h
  rcases h with h | h
  · exact Or.inl h
  · exact Or.inr (List.mem_of_mem_filter h)

theorem perm_extract {m : List (Nat × Nat)} {k c : Nat}
    (hnd : (m.map Prod.fst).Nodup) (h : mapGet m k = some c) :
    m.Perm ((k, c) :: m.filter (fun e => e.1 != k)) := by
  induction m with
  | nil => cases h
  | cons a rest ih =>
    rw [List.map_cons, List.nodup_cons] at hnd
    rw [mapGet] at h
    by_cases hak : a.1 = k
    · rw [if_pos hak] at h
      injection h with hc
      have hrest : ∀ e, e ∈ rest → e.1 ≠ k := by
        intro e he hek
        exact hnd.1 (by rw [hak, ← hek]; exact List.mem_map_of_mem Prod.fst he)
      rw [List.filter_cons]
      have hfa : ¬ (a.1 != k) = true := by simp [hak]
      rw [if_neg hfa, filter_eq_of_no_key hrest]
      have hae : a = (k, c) := by
        cases a
        simp only [Prod.mk.injEq]
        exact ⟨hak, hc⟩
      rw [hae]
    · rw [if_neg hak] at h
      rw [List.filter_cons]
      have hfa : (a.1 != k) = true := by simpa using hak
      rw [if_pos hfa]
      exact ((ih hnd.2 h).cons a).trans (List.Perm.swap (k, c) a _)
theorem cuckooLoop_nil (maxDepth : Nat) (b : Nat → Nat × Nat × Nat)
    (c : Nat → Nat) (t : Nat) (m : List (Nat × Nat)) :
    cuckooLoop maxDepth b c t m [] = some m := by
  rw [cuckooLoop]

theorem cuckooLoop_exceeded (maxDepth : Nat) (b : Nat → Nat × Nat × Nat)
    (c : Nat → Nat) (t idx depth : Nat) (m rest : List (Nat × Nat))
    (h : depth ≥ maxDepth) :
    cuckooLoop maxDepth b c t m ((idx, depth) :: rest) = none := by
  rw [cuckooLoop, dif_pos h]

theorem cuckooLoop_free1 (maxDepth : Nat) (b : Nat → Nat × Nat × Nat)
    (c : Nat → Nat) (t idx depth : Nat) (m rest : List (Nat × Nat))
    (h : ¬ depth ≥ maxDepth) (h1 : mapGet m (b idx).1 = none) :
    cuckooLoop maxDepth b c t m ((idx, depth) :: rest) =
      cuckooLoop maxDepth b c t (mapInsert m (b idx).1 idx) rest := by
  rw [cuckooLoop, dif_neg h, h1]

theorem cuckooLoop_free2 (maxDepth : Nat) (b : Nat → Nat × Nat × Nat)
    (c : Nat → Nat) (t idx depth c1 : Nat) (m rest : List (Nat × Nat))
    (h : ¬ depth ≥ maxDepth) (h1 : mapGet m (b idx).1 = some c1)
    (h2 : mapGet m (b idx).2.1 = none) :
    cuckooLoop maxDepth b c t m ((idx, depth) :: rest) =
      cuckooLoop maxDepth b c t (mapInsert m (b idx).2.1 idx) rest := by
  rw [cuckooLoop, dif_neg h, h1, h2]

theorem cuckooLoop_free3 (maxDepth : Nat) (b : Nat → Nat × Nat × Nat)
    (c : Nat → Nat) (t idx depth c1 c2 : Nat) (m rest : List (Nat × Nat))
    (h : ¬ depth ≥ maxDepth) (h1 : mapGet m (b idx).1 = some c1)
    (h2 : mapGet m (b idx).2.1 = some c2) (h3 : mapGet m (b idx).2.2 = none) :
    cuckooLoop maxDepth b c t m ((idx, depth) :: rest) =
      cuckooLoop maxDepth b c t (mapInsert m (b idx).2.2 idx) rest := by
  rw [cuckooLoop, dif_neg h, h1, h2, h3]

theorem cuckooLoop_evict (maxDepth : Nat) (b : Nat → Nat × Nat × Nat)
    (c : Nat → Nat) (t idx depth c1 c2 c3 : Nat) (m rest : List (Nat × Nat))
    (h : ¬ depth ≥ maxDepth) (h1 : mapGet m (b idx).1 = some c1)
    (h2 : mapGet m (b idx).2.1 = some c2) (h3 : mapGet m (b idx).2.2 = some c3) :
    cuckooLoop maxDepth b c t m ((idx, depth) :: rest) =
      (if c t % 3 = 0 then
        cuckooLoop maxDepth b c (t + 1) (mapInsert m (b idx).1 idx)
          ((c1, depth + 1) :: rest)
      else if c t % 3 = 1 then
        cuckooLoop maxDepth b c (t + 1) (mapInsert m (b idx).2.1 idx)
          ((c2, depth + 1) :: rest)
      else
        cuckooLoop maxDepth b c (t + 1) (mapInsert m (b idx).2.2 idx)
          ((c3, depth + 1) :: rest)) := by
  rw [cuckooLoop, dif_neg h, h1, h2, h3]
/-- Invariant of the cuckoo loop: bucket keys are distinct, every placed pair
sits in one of its item's candidate buckets, and the placed items together
with the pending stack are a permutation of the `n` item positions. -/
def CuckooInv (n : Nat) (buckets : Nat → Nat × Nat × Nat)
    (mapping remaining : List (Nat × Nat)) : Prop :=
  (mapping.map Prod.fst).Nodup ∧
  (∀ p, p ∈ mapping →
    p.1 = (buckets p.2).1 ∨ p.1 = (buckets p.2).2.1 ∨ p.1 = (buckets p.2).2.2) ∧
  (mapping.map Prod.snd ++ remaining.map Prod.fst).Perm (List.range n)

theorem insert_free_perm {m rest : List (Nat × Nat)} {idx depth k n : Nat}
    (hget : mapGet m k = none)
    (hperm : (m.map Prod.snd ++ ((idx, depth) :: rest).map Prod.fst).Perm
      (List.range n)) :
    ((mapInsert m k idx).map Prod.snd ++ rest.map Prod.fst).Perm (List.range n) := by
  rw [mapInsert, List.map_cons, filter_eq_of_no_key (mapGet_none_not_key hget)]
  simp only [List.map_cons] at hperm
  refine List.Perm.trans ?_ hperm
  simp only [List.cons_append]
  exact List.perm_middle.symm

theorem insert_evict_perm {m rest : List (Nat × Nat)} {idx depth k curr n : Nat}
    (hnd : (m.map Prod.fst).Nodup) (hget : mapGet m k = some curr)
    (hperm : (m.map Prod.snd ++ ((idx, depth) :: rest).map Prod.fst).Perm
      (List.range n)) :
    ((mapInsert m k idx).map Prod.snd ++
      ((curr, depth + 1) :: rest).map Prod.fst).Perm (List.range n) := by
  have hm : (m.map Prod.snd).Perm
      (curr :: (m.filter (fun e => e.1 != k)).map Prod.snd) := by
    have h0 := (perm_extract hnd hget).map Prod.snd
    simpa using h0
  rw [mapInsert, List.map_cons]
  simp only [List.map_cons] at hperm ⊢
  refine List.Perm.trans ?_ hperm
  simp only [List.cons_append]
  have s1 : (idx :: ((m.filter (fun e => e.1 != k)).map Prod.snd ++
      curr :: rest.map Prod.fst)).Perm
      (idx :: (curr :: ((m.filter (fun e => e.1 != k)).map Prod.snd ++
        rest.map Prod.fst))) :=
    (List.perm_middle).cons idx
  have s2 : (idx :: curr :: ((m.filter (fun e => e.1 != k)).map Prod.snd ++
      rest.map Prod.fst)).Perm
      (curr :: idx :: ((m.filter (fun e => e.1 != k)).map Prod.snd ++
        rest.map Prod.fst)) :=
    List.Perm.swap curr idx _
  have s3 : (curr :: idx :: ((m.filter (fun e => e.1 != k)).map Prod.snd ++
      rest.map Prod.fst)).Perm
      (curr :: ((m.filter (fun e => e.1 != k)).map Prod.snd ++
        idx :: rest.map Prod.fst)) :=
    (List.perm_middle.symm).cons curr
  have s4 : ((curr :: (m.filter (fun e => e.1 != k)).map Prod.snd) ++
      idx :: rest.map Prod.fst).Perm
      (m.map Prod.snd ++ idx :: rest.map Prod.fst) :=
    hm.symm.append_right _
  exact ((s1.trans s2).trans s3).trans (by simpa using s4)
/-- The cuckoo loop preserves `CuckooInv`: whenever it returns a mapping,
that mapping satisfies the invariant with an empty stack. -/
theorem cuckooLoop_sound (maxDepth : Nat) (buckets : Nat → Nat × Nat × Nat)
    (coins : Nat → Nat) (n : Nat) :
    ∀ N t mapping remaining out,
      (remaining.map (fun e => maxDepth + 1 - e.2)).sum ≤ N →
      CuckooInv n buckets mapping remaining →
      cuckooLoop maxDepth buckets coins t mapping remaining = some out →
      CuckooInv n buckets out [] := by
  intro N
  induction N with
  | zero =>
    intro t mapping remaining out hN hinv heq
    cases remaining with
    | nil =>
      rw [cuckooLoop_nil] at heq
      injection heq with h
      subst h
      exact hinv
    | cons e rest =>
      obtain ⟨idx, depth⟩ := e
      simp only [List.map_cons, List.sum_cons] at hN
      have hdep : depth ≥ maxDepth := by omega
      rw [cuckooLoop_exceeded _ _ _ _ _ _ _ _ hdep] at heq
      cases heq
  | succ N ih =>
    intro t mapping remaining out hN hinv heq
    cases remaining with
    | nil =>
      rw [cuckooLoop_nil] at heq
      injection heq with h
      subst h
      exact hinv
    | cons e rest =>
      obtain ⟨idx, depth⟩ := e
      by_cases hdep : depth ≥ maxDepth
      · rw [cuckooLoop_exceeded _ _ _ _ _ _ _ _ hdep] at heq
        cases heq
      · obtain ⟨hnd, hcand, hperm⟩ := hinv
        simp only [List.map_cons, List.sum_cons] at hN
        have hterm : 2 ≤ maxDepth + 1 - depth := by omega
        rcases hg1 : mapGet mapping (buckets idx).1 with _ | c1
        · rw [cuckooLoop_free1 _ _ _ _ _ _ _ _ hdep hg1] at heq
          refine ih _ _ _ _ (by omega) ⟨mapInsert_keys_nodup hnd, ?_, ?_⟩ heq
          · intro p hp
            rcases mapInsert_mem hp with rfl | hp2
            · exact Or.inl rfl
            · exact hcand p hp2
          · exact insert_free_perm hg1 hperm
        · rcases hg2 : mapGet mapping (buckets idx).2.1 with _ | c2
          · rw [cuckooLoop_free2 _ _ _ _ _ _ _ _ _ hdep hg1 hg2] at heq
            refine ih _ _ _ _ (by omega) ⟨mapInsert_keys_nodup hnd, ?_, ?_⟩ heq
            · intro p hp
              rcases mapInsert_mem hp with rfl | hp2
              · exact Or.inr (Or.inl rfl)
              · exact hcand p hp2
            · exact insert_free_perm hg2 hperm
          · rcases hg3 : mapGet mapping (buckets idx).2.2 with _ | c3
            · rw [cuckooLoop_free3 _ _ _ _ _ _ _ _ _ _ hdep hg1 hg2 hg3] at heq
              refine ih _ _ _ _ (by omega) ⟨mapInsert_keys_nodup hnd, ?_, ?_⟩ heq
              · intro p hp
                rcases mapInsert_mem hp with rfl | hp2
                · exact Or.inr (Or.inr rfl)
                · exact hcand p hp2
              · exact insert_free_perm hg3 hperm
            · rw [cuckooLoop_evict _ _ _ _ _ _ _ _ _ _ _ hdep hg1 hg2 hg3] at heq
              have hmeas : ((maxDepth + 1 - (depth + 1)) +
                  (rest.map (fun e => maxDepth + 1 - e.2)).sum) ≤ N := by omega
              by_cases hc0 : coins t % 3 = 0
              · rw [if_pos hc0] at heq
                refine ih _ _ _ _ ?_ ⟨mapInsert_keys_nodup hnd, ?_, ?_⟩ heq
                · simp only [List.map_cons, List.sum_cons]
                  omega
                · intro p hp
                  rcases mapInsert_mem hp with rfl | hp2
                  · exact Or.inl rfl
                  · exact hcand p hp2
                · exact insert_evict_perm hnd hg1 hperm
              · rw [if_neg hc0] at heq
                by_cases hc1 : coins t % 3 = 1
                · rw [if_pos hc1] at heq
                  refine ih _ _ _ _ ?_ ⟨mapInsert_keys_nodup hnd, ?_, ?_⟩ heq
                  · simp only [List.map_cons, List.sum_cons]
                    omega
                  · intro p hp
                    rcases mapInsert_mem hp with rfl | hp2
                    · exact Or.inr (Or.inl rfl)
                    · exact hcand p hp2
                  · exact insert_evict_perm hnd hg2 hperm
                · rw [if_neg hc1] at heq
                  refine ih _ _ _ _ ?_ ⟨mapInsert_keys_nodup hnd, ?_, ?_⟩ heq
                  · simp only [List.map_cons, List.sum_cons]
                    omega
                  · intro p hp
                    rcases mapInsert_mem hp with rfl | hp2
                    · exact Or.inr (Or.inr rfl)
                    · exact hcand p hp2
                  · exact insert_evict_perm hnd hg3 hperm
/-- C6: cuckoo soundness. Whenever `cuckoo` returns `Some(mapping)`, every
item position below `n` appears exactly once among the mapping's item
entries, each pair's bucket is one of the three hash candidates
`idx_to_buckets(items[idx])`, and no two pairs share a bucket. -/
theorem claim_C6_cuckoo_soundness {K n maxDepth : Nat} {hash items coins : Nat → Nat}
    {mapping : List (Nat × Nat)}
    (h : cuckoo_model K hash items n maxDepth coins = some mapping) :
    (∀ idx, idx < n → (mapping.map Prod.snd).count idx = 1) ∧
    (∀ p, p ∈ mapping →
      p.1 = (idx_to_buckets K (hash (items p.2))).1 ∨
      p.1 = (idx_to_buckets K (hash (items p.2))).2.1 ∨
      p.1 = (idx_to_buckets K (hash (items p.2))).2.2) ∧
    (mapping.map Prod.fst).Nodup := by
  have hinv0 : CuckooInv n (fun idx => idx_to_buckets K (hash (items idx))) []
      ((List.range n).reverse.map (fun i => (i, 0))) := by
    refine ⟨List.nodup_nil, fun p hp => absurd hp (List.not_mem_nil p), ?_⟩
    simp only [List.map_nil, List.nil_append]
    have hid : ∀ l : List Nat, (l.map (fun i => (i, (0 : Nat)))).map Prod.fst = l := by
      intro l
      induction l with
      | nil => rfl
      | cons a tl iht => simp [iht]
    rw [hid]
    exact List.reverse_perm _
  have hs := cuckooLoop_sound maxDepth
    (fun idx => idx_to_buckets K (hash (items idx))) coins n
    ((((List.range n).reverse.map (fun i => (i, 0))).map
      (fun e => maxDepth + 1 - e.2)).sum) 0 [] _ mapping (le_refl _) hinv0 h
  obtain ⟨hnd, hcand, hperm⟩ := hs
  simp only [List.map_nil, List.append_nil] at hperm
  refine ⟨?_, hcand, hnd⟩
  intro idx hidx
  have hmem : idx ∈ mapping.map Prod.snd :=
    hperm.mem_iff.mpr (List.mem_range.mpr hidx)
  have hnd2 : (mapping.map Prod.snd).Nodup :=
    hperm.nodup_iff.mpr (List.nodup_range n)
  exact List.count_eq_one_of_mem hnd2 hmem

theorem claim_C6_cuckoo_soundness_witness :
    cuckoo_model 3 (fun v => v) (fun i => i) 1 1 (fun _ => 0) = some [(0, 0)] ∧
    (([(0, 0)] : List (Nat × Nat)).map Prod.fst).Nodup := by
  have h0 : cuckoo_model 3 (fun v => v) (fun i => i) 1 1 (fun _ => 0) =
      some [(0, 0)] := by
    show cuckooLoop 1 (fun idx => idx_to_buckets 3 idx) (fun _ => 0) 0 []
      [(0, 0)] = some [(0, 0)]
    rw [cuckooLoop_free1 1 (fun idx => idx_to_buckets 3 idx) (fun _ => 0) 0 0 0 [] []
      (by norm_num) rfl, cuckooLoop_nil]
    rfl
  exact ⟨h0, (claim_C6_cuckoo_soundness h0).2.2⟩

/-- When every item has all three candidates equal to bucket `0` and the rng
always draws `0`, a single-bucket state with one pending item cycles forever:
each eviction swaps the resident and the pending item with the depth growing
by one, so the loop reaches `max_depth` and returns `None`. -/
theorem cuckoo_all_same_bucket_overflow (maxDepth : Nat)
    (b : Nat → Nat × Nat × Nat) (hb : ∀ i, b i = (0, 0, 0)) (coins : Nat → Nat)
    (hc : ∀ t, coins t = 0) :
    ∀ N d t x y, maxDepth + 1 - d ≤ N →
      cuckooLoop maxDepth b coins t [(0, x)] [(y, d)] = none := by
  intro N
  induction N with
  | zero =>
    intro d t x y hN
    have hd : d ≥ maxDepth := by omega
    exact cuckooLoop_exceeded _ _ _ _ _ _ _ _ hd
  | succ N ih =>
    intro d t x y hN
    by_cases hd : d ≥ maxDepth
    · exact cuckooLoop_exceeded _ _ _ _ _ _ _ _ hd
    · have hg : mapGet [(0, x)] (b y).1 = some x := by rw [hb y]; rfl
      have hg2 : mapGet [(0, x)] (b y).2.1 = some x := by rw [hb y]; rfl
      have hg3 : mapGet [(0, x)] (b y).2.2 = some x := by rw [hb y]; rfl
      rw [cuckooLoop_evict _ _ _ _ _ _ x x x _ _ hd hg hg2 hg3, hc t,
        if_pos (by norm_num)]
      have hmi : mapInsert [(0, x)] (b y).1 y = [(0, y)] := by rw [hb y]; rfl
      rw [hmi]
      exact ih (d + 1) (t + 1) y x (by omega)

/-- A concrete batch on which cuckoo insertion exceeds `max_depth = 2^16`:
one bucket (`K = 1`) and two items, so the two items evict each other until
the depth budget runs out and `cuckoo` returns `None`. -/
theorem cuckoo_overflow_instance :
    cuckoo_model 1 (fun v => v) (fun i => i) 2 (2 ^ 16) (fun _ => 0) = none := by
  have hb : ∀ i, (fun idx => idx_to_buckets 1 idx) i = ((0 : Nat), (0 : Nat), (0 : Nat)) := by
    intro i
    simp [idx_to_buckets, Nat.mod_one]
  show cuckooLoop (2 ^ 16) (fun idx => idx_to_buckets 1 idx) (fun _ => 0) 0 []
    [(1, 0), (0, 0)] = none
  rw [cuckooLoop_free1 (2 ^ 16) (fun idx => idx_to_buckets 1 idx) (fun _ => 0) 0 1 0
    [] [(0, 0)] (by norm_num) rfl]
  have hm1 : mapInsert [] ((fun idx => idx_to_buckets 1 idx) 1).1 1 = [(0, 1)] := rfl
  rw [hm1]
  rw [cuckooLoop_evict (2 ^ 16) (fun idx => idx_to_buckets 1 idx) (fun _ => 0) 0 0 0
    1 1 1 [(0, 1)] [] (by norm_num) rfl rfl rfl,
    if_pos (by norm_num)]
  have hm2 : mapInsert [(0, 1)] ((fun idx => idx_to_buckets 1 idx) 0).1 0 =
      [(0, 0)] := rfl
  rw [hm2]
  exact cuckoo_all_same_bucket_overflow (2 ^ 16) _ hb _ (fun _ => rfl)
    (2 ^ 16) 1 1 0 1 (by norm_num)

/-- C7 (amended): when cuckoo insertion exceeds `max_depth = 2^16`,
`CuckooRespireImpl::query` does not return a failure value: it calls
`.unwrap()` on the `None` and panics. -/
theorem claim_C7_query_overflow_panics {K n : Nat} {hash items coins : Nat → Nat}
    (h : cuckoo_model K hash items n (2 ^ 16) coins = none) :
    query_cuckoo K n hash items coins = QueryOutcome.panicked := by
  rw [query_cuckoo, h]

theorem claim_C7_query_overflow_panics_witness :
    cuckoo_model 1 (fun v => v) (fun i => i) 2 (2 ^ 16) (fun _ => 0) = none ∧
    query_cuckoo 1 2 (fun v => v) (fun i => i) (fun _ => 0) =
      QueryOutcome.panicked :=
  ⟨cuckoo_overflow_instance, claim_C7_query_overflow_panics cuckoo_overflow_instance⟩

/-- C7 counterexample: on an overflowing batch the cuckoo stage of `query`
panics (`unwrap` of `None`); in particular its outcome is not `ok f` for any
value `f`, so no failure value is returned to the caller. -/
theorem claim_C7_counterexample :
    query_cuckoo 1 2 (fun v => v) (fun i => i) (fun _ => 0) =
      QueryOutcome.panicked ∧
    ∀ f, query_cuckoo 1 2 (fun v => v) (fun i => i) (fun _ => 0) ≠
      QueryOutcome.ok f := by
  have h : query_cuckoo 1 2 (fun v => v) (fun i => i) (fun _ => 0) =
      QueryOutcome.panicked := by
    rw [query_cuckoo, cuckoo_overflow_instance]
  refine ⟨h, fun f hf => ?_⟩
  rw [h] at hf
  cases hf
end Respire
